import Mathlib

/-!
Verification of the hosts-filtering tool (filter_hosts.py and main.py).

The Python code stores domain patterns in a nested-dictionary trie whose
keys are domain labels, with a special key "$" mapping to the value True
to mark the end of a stored domain.  Because "$" lives in the same
dictionary as ordinary labels, a stored label "$" is indistinguishable
from the end mark; the model below keeps that detail.

Python dictionaries are modelled as insertion-ordered association lists
whose values are either a child dictionary (Dict) or the boolean True
(the end mark).  Operations that would raise a TypeError in Python
(indexing into True, assigning into True, iterating True) return none.
-/

namespace Hosts

/-! ## Python string primitives, modelled on the character list of a string -/

/-- The ASCII whitespace characters recognised by Python str.strip and
str.split with no separator. -/
def isPySpace (c : Char) : Bool :=
  c == ' ' || c == '\t' || c == '\n' || c == '\r' || c == '\x0b' || c == '\x0c'

/-- Drop trailing characters satisfying p. -/
def dropTrailing (p : Char → Bool) (cs : List Char) : List Char :=
  ((cs.reverse).dropWhile p).reverse

/-- Strip characters satisfying p from both ends, as Python str.strip does. -/
def stripList (p : Char → Bool) (cs : List Char) : List Char :=
  dropTrailing p (cs.dropWhile p)

/-- Python line.strip(): remove leading and trailing whitespace. -/
def pyStrip (s : String) : String :=
  String.mk (stripList isPySpace s.data)

/-- clean_domain from filter_hosts.py: domain.strip().strip('.').
Only leading and trailing whitespace and dots are removed; the interior
of the string is preserved unchanged. -/
def clean_domain (s : String) : String :=
  String.mk (stripList (fun c => c == '.') (stripList isPySpace s.data))

/-- Python s.split('.') on the character list: splits at every dot,
keeping empty pieces, and yields one piece for the empty input. -/
def splitDotsChars : List Char → List (List Char)
  | [] => [[]]
  | c :: cs =>
    if c = '.' then [] :: splitDotsChars cs
    else
      match splitDotsChars cs with
      | [] => [[c]]
      | l :: ls => (c :: l) :: ls

/-- Python domain.split('.'). -/
def splitDots (s : String) : List String :=
  (splitDotsChars s.data).map String.mk

/-- Python lc.startswith('#'). -/
def hashStart (s : String) : Bool :=
  match s.data with
  | [] => false
  | c :: _ => c == '#'

/-- Python lc.split('#', 1)[0]: everything before the first '#'
(the whole string when there is no '#'). -/
def beforeHash (s : String) : String :=
  String.mk (s.data.takeWhile (fun c => c != '#'))

/-- Helper for Python str.split() with no separator: accumulates the
current word (reversed) while scanning. -/
def splitWsAux (cur : List Char) : List Char → List (List Char)
  | [] => if cur.isEmpty then [] else [cur.reverse]
  | c :: cs =>
    if isPySpace c then
      if cur.isEmpty then splitWsAux [] cs else cur.reverse :: splitWsAux [] cs
    else splitWsAux (c :: cur) cs

/-- Python content.split(): split on whitespace runs, no empty tokens. -/
def pySplitWs (s : String) : List String :=
  (splitWsAux [] s.data).map String.mk

/-- Python str.lower() restricted to ASCII letters. -/
def pyLower (s : String) : String :=
  String.mk (s.data.map Char.toLower)

/-! ## The trie dictionary

A node of the DomainTrie is a Python dict.  Each binding maps a string
key either to a child dict (consNode) or to the value True (consMark);
the code only ever stores True under the key "$", but nothing in the
data structure enforces that, which is exactly the collision this
development studies. -/

inductive Dict where
  | nil : Dict
  | consMark (key : String) (rest : Dict) : Dict
  | consNode (key : String) (child : Dict) (rest : Dict) : Dict
deriving DecidableEq, Repr

/-- Dictionary lookup, first binding wins.
none: key absent; some none: key maps to True; some (some c): child c. -/
def dfind? : Dict → String → Option (Option Dict)
  | .nil, _ => none
  | .consMark k r, q => if k = q then some none else dfind? r q
  | .consNode k c r, q => if k = q then some (some c) else dfind? r q

/-- Python key-in-dict test (counts both child and True bindings). -/
def dmem (d : Dict) (q : String) : Bool :=
  (dfind? d q).isSome

/-- Python d[q] = True: replace an existing binding in place or append. -/
def dsetMark : Dict → String → Dict
  | .nil, q => .consMark q .nil
  | .consMark k r, q => if k = q then .consMark k r else .consMark k (dsetMark r q)
  | .consNode k c r, q => if k = q then .consMark k r else .consNode k c (dsetMark r q)

/-- Python d[q] = child: replace an existing binding in place or append. -/
def dsetNode : Dict → String → Dict → Dict
  | .nil, q, c => .consNode q c .nil
  | .consMark k r, q, c => if k = q then .consNode k c r else .consMark k (dsetNode r q c)
  | .consNode k c0 r, q, c => if k = q then .consNode k c r else .consNode k c0 (dsetNode r q c)

/-- The end-of-domain marker key used by DomainTrie. -/
def endKey : String := "$"

/-! ## DomainTrie operations (filter_hosts.py) -/

/-- The loop of DomainTrie.add_domain over the reversed label list.
Walks or creates the path, then sets the end mark at the final node.
Returns none where Python would raise a TypeError (walking into or
assigning into the value True). -/
def addParts : List String → Dict → Option Dict
  | [], d => some (dsetMark d endKey)
  | p :: ps, d =>
    match dfind? d p with
    | none =>
      match addParts ps .nil with
      | none => none
      | some sub => some (dsetNode d p sub)
    | some (some sub) =>
      match addParts ps sub with
      | none => none
      | some sub2 => some (dsetNode d p sub2)
    | some none => none

/-- DomainTrie.add_domain: empty domains are ignored, otherwise the
domain is split on '.', reversed, and inserted. -/
def add_domain (t : Dict) (domain : String) : Option Dict :=
  if domain = "" then some t
  else addParts (splitDots domain).reverse t

/-- The loop of DomainTrie.is_subdomain_or_match over the reversed label
list.  At each consumed label: absent means no match; if the reached
node contains the key "$" the walk stops with a match; a binding of the
label to True makes Python assign current_node = True and then crash on
the membership test, modelled as none. -/
def queryParts : List String → Dict → Option Bool
  | [], d => some (dmem d endKey)
  | p :: ps, d =>
    match dfind? d p with
    | none => some false
    | some (some sub) => if dmem sub endKey then some true else queryParts ps sub
    | some none => none

/-- DomainTrie.is_subdomain_or_match. -/
def is_subdomain_or_match (t : Dict) (domain : String) : Option Bool :=
  if domain = "" then some false
  else queryParts (splitDots domain).reverse t

/-- The recursive _merge_nodes of merge_tries: iterate the source
bindings in order; a binding whose key is "$" is written into the
destination as True regardless of its value; any other binding must be
a child dict (a True value there would make Python iterate True and
crash), which is merged into the destination child, created fresh when
absent (a True destination binding under a non-"$" key would also
crash). -/
def mergeNodes : Dict → Dict → Option Dict
  | .nil, dest => some dest
  | .consMark k r, dest =>
    if k = endKey then mergeNodes r (dsetMark dest endKey)
    else none
  | .consNode k c r, dest =>
    if k = endKey then mergeNodes r (dsetMark dest endKey)
    else
      match dfind? dest k with
      | none =>
        match mergeNodes c .nil with
        | none => none
        | some sub => mergeNodes r (dsetNode dest k sub)
      | some (some dsub) =>
        match mergeNodes c dsub with
        | none => none
        | some sub => mergeNodes r (dsetNode dest k sub)
      | some none => none

/-- merge_tries(trie1, trie2): merge trie2's nodes into trie1
(both tries are always truthy objects, so the guard always passes). -/
def merge_tries (trie1 trie2 : Dict) : Option Dict :=
  mergeNodes trie2 trie1

/-! ## Builder (build_trie_from_url)

The line source is modelled as the list of lines it yields before either
finishing normally or raising mid-stream (sourceFails).  Any exception
is caught by the broad handler, which returns None. -/

/-- The line loop of build_trie_from_url: strip, skip blank and comment
lines, clean, insert when non-empty. -/
def buildLines (t : Dict) : List String → Option Dict
  | [] => some t
  | l :: ls =>
    let lc := pyStrip l
    if lc = "" || hashStart lc then buildLines t ls
    else
      let c := clean_domain lc
      if c = "" then buildLines t ls
      else
        match add_domain t c with
        | none => none
        | some t2 => buildLines t2 ls

/-- build_trie_from_url: None on any failure (transport error raised by
the stream, or an exception while inserting), otherwise the built trie. -/
def build_trie_from_url (lines : List String) (sourceFails : Bool) : Option Dict :=
  if sourceFails then none
  else buildLines .nil lines

/-! ## Classifier (filter_hosts_file) -/

/-- The candidate domains the classifier extracts from a raw line:
strip, drop blank and comment-first lines, cut the inline comment,
split on whitespace, clean each token, keep the non-empty results. -/
def lineDomains (line : String) : List String :=
  let lc := pyStrip line
  if lc = "" || hashStart lc then []
  else
    let content := pyStrip (beforeHash lc)
    if content = "" then []
    else ((pySplitWs content).map clean_domain).filter (fun d => d != "")

/-- The break-on-first-hit loop checking a domain list against a trie. -/
def anyMatch (t : Dict) : List String → Option Bool
  | [] => some false
  | d :: ds =>
    match is_subdomain_or_match t d with
    | none => none
    | some true => some true
    | some false => anyMatch t ds

/-- The per-line body of filter_hosts_file: some true when the line is
appended to the output, some false when it is skipped, none when a
query raises. -/
def keepLine (white black : Dict) (line : String) : Option Bool :=
  let lc := pyStrip line
  if lc = "" || hashStart lc then some false
  else
    let content := pyStrip (beforeHash lc)
    if content = "" then some false
    else
      let doms := ((pySplitWs content).map clean_domain).filter (fun d => d != "")
      if doms = [] then some false
      else
        match anyMatch white doms with
        | none => none
        | some false => some false
        | some true =>
          match anyMatch black doms with
          | none => none
          | some bb => some (!bb)

/-- The line loop of filter_hosts_file, propagating a raised query. -/
def filterLines (white black : Dict) : List String → Option (List String)
  | [] => some []
  | l :: ls =>
    match keepLine white black l with
    | none => none
    | some true => (filterLines white black ls).map (fun r => l :: r)
    | some false => filterLines white black ls

/-- filter_hosts_file: the broad except turns any failure (transport
error from the stream or an exception while matching) into the empty
list. -/
def filter_hosts_file (white black : Dict) (lines : List String) (sourceFails : Bool) :
    List String :=
  if sourceFails then []
  else
    match filterLines white black lines with
    | none => []
    | some r => r

/-! ## main() of filter_hosts.py: abort decision and result sink -/

/-- The abort decision after building the whitelist trie: "if not
white_trie" is True only when build_trie_from_url returned None, because
a DomainTrie instance is always truthy, even when it holds no entries. -/
def whiteAborts (lines : List String) (sourceFails : Bool) : Bool :=
  match build_trie_from_url lines sourceFails with
  | none => true
  | some _ => false

/-- Python '\n'.join(lines). -/
def joinNL : List String → String
  | [] => ""
  | [l] => l
  | l :: ls => l ++ "\n" ++ joinNL ls

/-- The result sink of filter_hosts.py main(): f.write('\n'.join(result_lines)),
with no trailing newline. -/
def persistFilter (lines : List String) : String :=
  joinNL lines

/-! ## main.py -/

/-- fetch_and_extract_domains: on success, the stripped, lowercased,
non-blank, non-comment lines (a set, modelled as a deduplicating list);
on any failure an empty set. -/
def insertSet (acc : List String) (s : String) : List String :=
  if acc.contains s then acc else acc ++ [s]

def fetch_and_extract_domains (lines : List String) (sourceFails : Bool) : List String :=
  if sourceFails then []
  else lines.foldl (fun acc l =>
    let lc := pyStrip l
    if lc = "" || hashStart lc then acc else insertSet acc (pyLower lc)) []

/-- The token-level decision of filter_hosts_by_domains: at least two
tokens, first token excluded, remaining tokens lowercased and tested
for exact membership in the target set. -/
def decideTokens (target : List String) (parts : List String) : Bool :=
  if parts.length < 2 then false
  else ((parts.drop 1).map pyLower).any (fun d => target.contains d)

/-- The token list a line contributes in filter_hosts_by_domains. -/
def lineTokens (line : String) : List String :=
  pySplitWs (pyStrip (beforeHash (pyStrip line)))

/-- The per-line decision of filter_hosts_by_domains (main.py):
skip blank and comment lines, strip the inline comment, then decide on
the tokens. -/
def keepLineMain (target : List String) (line : String) : Bool :=
  let lc := pyStrip line
  if lc = "" || hashStart lc then false
  else decideTokens target (pySplitWs (pyStrip (beforeHash lc)))

/-- filter_hosts_by_domains over a delivered line list; the broad except
returns the empty list on a transport failure. -/
def filter_hosts_by_domains (target : List String) (lines : List String)
    (sourceFails : Bool) : List String :=
  if sourceFails then []
  else lines.filter (keepLineMain target)

/-- The abort decision of main.py's entry point: exit(1) when the
extracted set is empty (which also happens on fetch failure). -/
def mainpyAborts (lines : List String) (sourceFails : Bool) : Bool :=
  (fetch_and_extract_domains lines sourceFails).isEmpty

/-- The result sink of main.py: f.write("\n".join(filtered_hosts) + "\n"),
executed only when the list is non-empty. -/
def persistMain (lines : List String) : String :=
  joinNL lines ++ "\n"

/-! ## Concrete tries used in examples and counterexamples -/

/-- The trie after add_domain("b.com") on a fresh trie. -/
def exBcom : Dict :=
  .consNode "com" (.consNode "b" (.consMark "$" .nil) .nil) .nil

/-- The trie after add_domain("$.com") on a fresh trie: the label "$"
creates a child under the same key the end mark uses. -/
def exDollarCom : Dict :=
  .consNode "com" (.consNode "$" (.consMark "$" .nil) .nil) .nil

/-- The trie after add_domain("example.com") on a fresh trie. -/
def exWhite : Dict :=
  .consNode "com" (.consNode "example" (.consMark "$" .nil) .nil) .nil

/-- The trie after add_domain("tracker.example.com") on a fresh trie. -/
def exBlack : Dict :=
  .consNode "com" (.consNode "example"
    (.consNode "tracker" (.consMark "$" .nil) .nil) .nil) .nil

/-- The trie after add_domain("a.$") on a fresh trie. -/
def exDolT2 : Dict :=
  .consNode "$" (.consNode "a" (.consMark "$" .nil) .nil) .nil

/-- What merge_tries produces when exDolT2 is merged into an empty trie:
the "$"-keyed child of the source root is flattened into a bare end
mark, losing the subtree. -/
def exDolMerged : Dict :=
  .consMark "$" .nil

/-- Concatenation of a list of strings. -/
def strConcat : List String → String
  | [] => ""
  | l :: ls => l ++ strConcat ls

/-! ## Well-formed tries and specification-level semantics

The nodes reachable by add_domain with keys whose labels avoid "$" have
a clean shape: True appears only under the key "$", children never use
the key "$", and keys are unique.  On such tries all operations are
total and the intended set semantics can be stated. -/

/-- Well-formedness of a trie node, as described above. -/
def WF : Dict → Bool
  | .nil => true
  | .consMark k r => k == endKey && !(dmem r k) && WF r
  | .consNode k c r => k != endKey && !(dmem r k) && WF c && WF r

/-- Total version of the query loop; agrees with queryParts on
well-formed tries with no root-level end mark. -/
def sem : List String → Dict → Bool
  | [], d => dmem d endKey
  | p :: ps, d =>
    match dfind? d p with
    | some (some sub) => dmem sub endKey || sem ps sub
    | _ => false

/-- qs is the reversed-label path of a stored domain of the trie. -/
def term : List String → Dict → Bool
  | [], d => dmem d endKey
  | p :: ps, d =>
    match dfind? d p with
    | some (some sub) => term ps sub
    | _ => false

/-- Insert a list of keys, each given as its label list, through the
add_domain loop. -/
def addKeys : List (List String) → Dict → Option Dict
  | [], d => some d
  | k :: ks, d =>
    match addParts k.reverse d with
    | none => none
    | some d2 => addKeys ks d2

/-- Boolean test that the first list starts the second. -/
def listPre : List String → List String → Bool
  | [], _ => true
  | _ :: _, [] => false
  | a :: ra, b :: rb => a == b && listPre ra rb

/-- Boolean test that k is a suffix of D as label lists: D equals k or D
is k with labels prepended. -/
def isSuffKey (k D : List String) : Bool := listPre k.reverse D.reverse

/-! ## Heap-level model

The pure model above cannot express aliasing between two tries, so the
same three operations are modelled once more at the level of Python's
object heap: a node is an address (Nat) into a heap of cells, a cell is
the association list of one dict, and a binding maps a key to either a
reference to another cell or the value True.  add_domain and merge
allocate fresh cells by appending to the heap, exactly where the Python
code writes current_node[part] = ... or dest_node[key] = ...; no
operation ever stores a reference to a pre-existing cell, which is the
no-aliasing property claim C10 is about.  merge carries a fuel counter
to express the recursion; a run that completes is one where the fuel
did not run out.  The iteration over a source node reads the node's
binding list when the node is entered; this coincides with Python's
live iteration whenever the merge does not mutate the source trie,
which is what is proved below for separated tries. -/

inductive HVal where
  | ref : Nat → HVal
  | mark : HVal
deriving DecidableEq, Repr

abbrev HCell := List (String × HVal)
abbrev Heap := List HCell

/-- Read a cell; out-of-range reads give the empty cell. -/
def hget (H : Heap) (a : Nat) : HCell := H.getD a []

/-- Write a cell (no-op out of range, which never happens in runs). -/
def hset (H : Heap) (a : Nat) (c : HCell) : Heap := H.set a c

/-- Lookup in one cell, first binding wins. -/
def cfind? : HCell → String → Option HVal
  | [], _ => none
  | (k, v) :: r, q => if k = q then some v else cfind? r q

/-- Python key-in-dict test on a cell. -/
def cmem (c : HCell) (q : String) : Bool := (cfind? c q).isSome

/-- Python d[q] = v on a cell: replace in place or append. -/
def cset : HCell → String → HVal → HCell
  | [], q, v => [(q, v)]
  | (k, v0) :: r, q, v => if k = q then (k, v) :: r else (k, v0) :: cset r q v

/-- The add_domain loop on the heap: walk or allocate the reversed-label
path from the root address, then set the end mark. -/
def haddParts : List String → Nat → Heap → Option Heap
  | [], a, H => some (hset H a (cset (hget H a) endKey HVal.mark))
  | p :: ps, a, H =>
    match cfind? (hget H a) p with
    | none =>
      haddParts ps H.length (hset (H ++ [[]]) a (cset (hget H a) p (HVal.ref H.length)))
    | some (HVal.ref b) => haddParts ps b H
    | some HVal.mark => none

/-- add_domain on the heap. -/
def hadd_domain (domain : String) (a : Nat) (H : Heap) : Option Heap :=
  if domain = "" then some H
  else haddParts (splitDots domain).reverse a H

/-- The is_subdomain_or_match loop on the heap. -/
def hqueryParts : List String → Nat → Heap → Option Bool
  | [], a, H => some (cmem (hget H a) endKey)
  | p :: ps, a, H =>
    match cfind? (hget H a) p with
    | none => some false
    | some (HVal.ref b) => if cmem (hget H b) endKey then some true else hqueryParts ps b H
    | some HVal.mark => none

/-- is_subdomain_or_match on the heap. -/
def hquery (domain : String) (a : Nat) (H : Heap) : Option Bool :=
  if domain = "" then some false
  else hqueryParts (splitDots domain).reverse a H

/-- The _merge_nodes recursion on the heap, processing the source
bindings of one node in order with destination address d.  Fresh
destination children are allocated at the end of the heap; the source
cells are only ever read. -/
def hmergeGo : Nat → List (String × HVal) → Nat → Heap → Option Heap
  | 0, _, _, _ => none
  | _ + 1, [], _, H => some H
  | fuel + 1, (k, v) :: rest, d, H =>
    if k = endKey then hmergeGo fuel rest d (hset H d (cset (hget H d) endKey HVal.mark))
    else
      match v with
      | HVal.mark => none
      | HVal.ref s =>
        match cfind? (hget H d) k with
        | none =>
          match hmergeGo fuel
              (hget (hset (H ++ [[]]) d (cset (hget H d) k (HVal.ref H.length))) s)
              H.length
              (hset (H ++ [[]]) d (cset (hget H d) k (HVal.ref H.length))) with
          | none => none
          | some H3 => hmergeGo fuel rest d H3
        | some (HVal.ref b) =>
          match hmergeGo fuel (hget H s) b H with
          | none => none
          | some H3 => hmergeGo fuel rest d H3
        | some HVal.mark => none

/-- merge_tries(t1, t2) on the heap: merge the node at r2 into the node
at r1. -/
def hmerge_tries (fuel : Nat) (r1 r2 : Nat) (H : Heap) : Option Heap :=
  hmergeGo fuel (hget H r2) r1 H

/-- All references of one cell lie below n. -/
def cellRefsBelow (n : Nat) : HCell → Bool
  | [] => true
  | (_, HVal.ref b) :: r => decide (b < n) && cellRefsBelow n r
  | (_, HVal.mark) :: r => cellRefsBelow n r

/-- Every reference in the heap stays inside the heap. -/
def HValid (H : Heap) : Bool := H.all (cellRefsBelow H.length)

/-- All references of one cell lie in [lo, hi). -/
def cellRefsIn (lo hi : Nat) : HCell → Bool
  | [] => true
  | (_, HVal.ref b) :: r => (decide (lo ≤ b) && decide (b < hi)) && cellRefsIn lo hi r
  | (_, HVal.mark) :: r => cellRefsIn lo hi r

/-- The cells with addresses in [lo, hi) only reference [lo, hi): the
region is closed, so a trie rooted there stays there. -/
def regionOk (H : Heap) (lo hi : Nat) : Bool :=
  (List.range H.length).all (fun a =>
    !(decide (lo ≤ a) && decide (a < hi)) || cellRefsIn lo hi (hget H a))

/-- Heap reachability by following references. -/
inductive HReach (H : Heap) (r : Nat) : Nat → Prop
  | refl : HReach H r r
  | step {b c : Nat} (k : String) : HReach H r b →
      cfind? (hget H b) k = some (HVal.ref c) → HReach H r c

/-- Heap evolution: the heap only grows, references of old cells that
point into the old heap were already present, and fresh cells never
point into the old heap. -/
def Evolves (H H2 : Heap) : Prop :=
  H.length ≤ H2.length ∧
  (∀ a k c, a < H.length → cfind? (hget H2 a) k = some (HVal.ref c) → c < H.length →
    cfind? (hget H a) k = some (HVal.ref c)) ∧
  (∀ a k c, H.length ≤ a → cfind? (hget H2 a) k = some (HVal.ref c) → H.length ≤ c)

/-- A concrete heap holding two separated tries: the trie for "com"
rooted at 0 (cells 0 and 1) and the trie for "org" rooted at 2 (cells 2
and 3). -/
def exHeap : Heap :=
  [[("com", HVal.ref 1)], [(endKey, HVal.mark)],
   [("org", HVal.ref 3)], [(endKey, HVal.mark)]]

/-- The heap after merging the trie at 2 into the trie at 0: the
destination gained a freshly allocated copy (cell 4) and the source
cells 2 and 3 are untouched. -/
def exHeapM : Heap :=
  [[("com", HVal.ref 1), ("org", HVal.ref 4)], [(endKey, HVal.mark)],
   [("org", HVal.ref 3)], [(endKey, HVal.mark)], [(endKey, HVal.mark)]]

/-! # Theorems -/

/-! ## General helper lemmas -/

theorem str_append_empty (s : String) : s ++ "" = s := by
  cases s with
  | mk d => show String.mk (d ++ []) = String.mk d
            rw [List.append_nil]

theorem exists_append_dropWhile (p : Char → Bool) :
    ∀ cs : List Char, ∃ u, u ++ cs.dropWhile p = cs := by
  intro cs
  induction cs with
  | nil => exact ⟨[], rfl⟩
  | cons c cs ih =>
    by_cases h : p c
    · obtain ⟨u, hu⟩ := ih
      refine ⟨c :: u, ?_⟩
      simp [List.dropWhile, h]
      simpa [List.dropWhile, h] using hu
    · exact ⟨[], by simp [List.dropWhile, h]⟩

/-- clean_domain never touches the interior: its result is a contiguous
slice of the input. -/
theorem clean_domain_slice (s : String) :
    ∃ u v, u ++ (clean_domain s).data ++ v = s.data := by
  have core : ∀ (p : Char → Bool) (cs : List Char),
      ∃ u v, u ++ stripList p cs ++ v = cs := by
    intro p cs
    obtain ⟨u, hu⟩ := exists_append_dropWhile p cs
    set a := cs.dropWhile p with ha
    obtain ⟨w, hw⟩ := exists_append_dropWhile p a.reverse
    refine ⟨u, w.reverse, ?_⟩
    have hstrip : stripList p cs = (a.reverse.dropWhile p).reverse := rfl
    have : a = (a.reverse.dropWhile p).reverse ++ w.reverse := by
      have := congrArg List.reverse hw
      simpa [List.reverse_append] using this.symm
    rw [hstrip, List.append_assoc, ← this, hu]
  obtain ⟨u1, v1, h1⟩ := core (fun c => c == '.') (stripList isPySpace s.data)
  obtain ⟨u2, v2, h2⟩ := core isPySpace s.data
  exact ⟨u2 ++ u1, v1 ++ v2, by
    have hc : (clean_domain s).data = stripList (fun c => c == '.') (stripList isPySpace s.data) := rfl
    rw [hc]
    simp only [List.append_assoc] at h1 h2 ⊢
    calc u2 ++ (u1 ++ (stripList (fun c => c == '.') (stripList isPySpace s.data) ++ (v1 ++ v2)))
        = u2 ++ ((u1 ++ (stripList (fun c => c == '.') (stripList isPySpace s.data) ++ v1)) ++ v2) := by
          simp [List.append_assoc]
      _ = u2 ++ (stripList isPySpace s.data ++ v2) := by rw [h1]
      _ = s.data := h2⟩

/-! ## Dictionary update lemmas -/

theorem dfind?_dsetMark (d : Dict) (k q : String) :
    dfind? (dsetMark d k) q = if k = q then some none else dfind? d q := by
  induction d with
  | nil =>
    by_cases h : k = q <;> simp [dsetMark, dfind?, h]
  | consMark k0 r ih =>
    by_cases h0 : k0 = k
    · subst h0
      simp only [dsetMark, if_pos rfl]
      by_cases h : k0 = q <;> simp [dfind?, h]
    · simp only [dsetMark, if_neg h0]
      by_cases h : k0 = q
      · subst h
        have hk : ¬ k = k0 := fun he => h0 he.symm
        simp [dfind?, hk]
      · simp [dfind?, h, ih]
  | consNode k0 c r ih ih2 =>
    by_cases h0 : k0 = k
    · subst h0
      simp only [dsetMark, if_pos rfl]
      by_cases h : k0 = q <;> simp [dfind?, h]
    · simp only [dsetMark, if_neg h0]
      by_cases h : k0 = q
      · subst h
        have hk : ¬ k = k0 := fun he => h0 he.symm
        simp [dfind?, hk]
      · simp [dfind?, h, ih2]

theorem dfind?_dsetNode (d : Dict) (k q : String) (c : Dict) :
    dfind? (dsetNode d k c) q = if k = q then some (some c) else dfind? d q := by
  induction d with
  | nil =>
    by_cases h : k = q <;> simp [dsetNode, dfind?, h]
  | consMark k0 r ih =>
    by_cases h0 : k0 = k
    · subst h0
      simp only [dsetNode, if_pos rfl]
      by_cases h : k0 = q <;> simp [dfind?, h]
    · simp only [dsetNode, if_neg h0]
      by_cases h : k0 = q
      · subst h
        have hk : ¬ k = k0 := fun he => h0 he.symm
        simp [dfind?, hk]
      · simp [dfind?, h, ih]
  | consNode k0 c0 r ih ih2 =>
    by_cases h0 : k0 = k
    · subst h0
      simp only [dsetNode, if_pos rfl]
      by_cases h : k0 = q <;> simp [dfind?, h]
    · simp only [dsetNode, if_neg h0]
      by_cases h : k0 = q
      · subst h
        have hk : ¬ k = k0 := fun he => h0 he.symm
        simp [dfind?, hk]
      · simp [dfind?, h, ih2]

theorem dmem_dsetMark (d : Dict) (k q : String) :
    dmem (dsetMark d k) q = ((k == q) || dmem d q) := by
  unfold dmem
  rw [dfind?_dsetMark]
  by_cases h : k = q <;> simp [h]

theorem dmem_dsetNode (d : Dict) (k q : String) (c : Dict) :
    dmem (dsetNode d k c) q = ((k == q) || dmem d q) := by
  unfold dmem
  rw [dfind?_dsetNode]
  by_cases h : k = q <;> simp [h]

theorem dfind?_consMark (k : String) (r : Dict) (q : String) :
    dfind? (Dict.consMark k r) q = if k = q then some none else dfind? r q := rfl

theorem dfind?_consNode (k : String) (c r : Dict) (q : String) :
    dfind? (Dict.consNode k c r) q = if k = q then some (some c) else dfind? r q := rfl

theorem dmem_eq (d : Dict) (q : String) : dmem d q = (dfind? d q).isSome := rfl

/-! ## Well-formedness lemmas -/

theorem WF_child {d : Dict} {q : String} {c : Dict} (hw : WF d = true)
    (h : dfind? d q = some (some c)) : WF c = true := by
  induction d with
  | nil => simp [dfind?] at h
  | consMark k r ih =>
    simp only [WF, Bool.and_eq_true] at hw
    simp only [dfind?] at h
    by_cases hk : k = q
    · rw [if_pos hk] at h; cases h
    · rw [if_neg hk] at h; exact ih hw.2 h
  | consNode k c0 r ih ih2 =>
    simp only [WF, Bool.and_eq_true] at hw
    simp only [dfind?] at h
    by_cases hk : k = q
    · rw [if_pos hk] at h
      cases h
      exact hw.1.2
    · rw [if_neg hk] at h; exact ih2 hw.2 h

theorem WF_mark_key {d : Dict} {q : String} (hw : WF d = true)
    (h : dfind? d q = some none) : q = endKey := by
  induction d with
  | nil => simp [dfind?] at h
  | consMark k r ih =>
    simp only [WF, Bool.and_eq_true, beq_iff_eq] at hw
    simp only [dfind?] at h
    by_cases hk : k = q
    · exact hk ▸ hw.1.1
    · rw [if_neg hk] at h; exact ih hw.2 h
  | consNode k c0 r ih ih2 =>
    simp only [WF, Bool.and_eq_true] at hw
    simp only [dfind?] at h
    by_cases hk : k = q
    · rw [if_pos hk] at h; cases h
    · rw [if_neg hk] at h; exact ih2 hw.2 h

theorem WF_dsetMark {d : Dict} (hw : WF d = true) : WF (dsetMark d endKey) = true := by
  induction d with
  | nil => simp [dsetMark, WF, dmem, dfind?]
  | consMark k r ih =>
    simp only [WF, Bool.and_eq_true, beq_iff_eq] at hw
    obtain ⟨⟨hk, hnd⟩, hr⟩ := hw
    subst hk
    simp only [dsetMark, if_pos rfl]
    simp [WF, hnd, hr]
  | consNode k c r ih ih2 =>
    simp only [WF, Bool.and_eq_true] at hw
    obtain ⟨⟨⟨hk, hnd⟩, hc⟩, hr⟩ := hw
    have hkne : k ≠ endKey := by simpa using hk
    simp only [dsetMark, if_neg hkne]
    simp only [WF, Bool.and_eq_true]
    refine ⟨⟨⟨hk, ?_⟩, hc⟩, ih2 hr⟩
    rw [dmem_dsetMark]
    have : (endKey == k) = false := by simpa using fun he => hkne he.symm
    simp only [this, Bool.false_or]
    simpa using hnd

theorem WF_dsetNode {d : Dict} {k : String} {c : Dict} (hw : WF d = true)
    (hk : k ≠ endKey) (hc : WF c = true) : WF (dsetNode d k c) = true := by
  induction d with
  | nil => simp [dsetNode, WF, dmem, dfind?, hk, hc]
  | consMark k0 r ih =>
    simp only [WF, Bool.and_eq_true, beq_iff_eq] at hw
    obtain ⟨⟨hk0, hnd⟩, hr⟩ := hw
    have hne : k0 ≠ k := fun he => hk (he.symm.trans hk0)
    simp only [dsetNode, if_neg hne]
    simp only [WF, Bool.and_eq_true, beq_iff_eq]
    refine ⟨⟨hk0, ?_⟩, ih hr⟩
    rw [dmem_dsetNode]
    have hbe : (k == k0) = false := by simpa using fun he => hne he.symm
    simp only [hbe, Bool.false_or]
    simpa using hnd
  | consNode k0 c0 r ih ih2 =>
    simp only [WF, Bool.and_eq_true] at hw
    obtain ⟨⟨⟨hk0, hnd⟩, hc0⟩, hr⟩ := hw
    by_cases he : k0 = k
    · subst he
      simp only [dsetNode, if_pos rfl]
      simp only [WF, Bool.and_eq_true]
      exact ⟨⟨⟨hk0, hnd⟩, hc⟩, hr⟩
    · simp only [dsetNode, if_neg he]
      simp only [WF, Bool.and_eq_true]
      refine ⟨⟨⟨hk0, ?_⟩, hc0⟩, ih2 hr⟩
      rw [dmem_dsetNode]
      have : (k == k0) = false := by simpa using fun h2 => he h2.symm
      simp only [this, Bool.false_or]
      simpa using hnd

theorem WF_no_end_node {d : Dict} (hw : WF d = true) :
    ∀ c : Dict, dfind? d endKey ≠ some (some c) := by
  induction d with
  | nil => intro c h; simp [dfind?] at h
  | consMark k r ih =>
    intro c h
    simp only [WF, Bool.and_eq_true, beq_iff_eq] at hw
    simp only [dfind?] at h
    by_cases hk : k = endKey
    · rw [if_pos hk] at h; cases h
    · rw [if_neg hk] at h; exact ih hw.2 c h
  | consNode k c0 r ih ih2 =>
    intro c h
    simp only [WF, Bool.and_eq_true] at hw
    have hk : k ≠ endKey := by simpa using hw.1.1.1
    simp only [dfind?] at h
    rw [if_neg hk] at h
    exact ih2 hw.2 c h

/-! ## Path (term) lemmas -/

theorem term_nil (qs : List String) : term qs Dict.nil = false := by
  cases qs <;> rfl

theorem term_end_cons {d : Dict} (hw : WF d = true) (qs : List String) :
    term (endKey :: qs) d = false := by
  unfold term
  cases hfind : dfind? d endKey with
  | none => rfl
  | some v =>
    cases v with
    | none => rfl
    | some sub => exact absurd hfind (WF_no_end_node hw sub)

/-! ## Insertion lemmas -/

theorem addParts_isSome : ∀ (ps : List String) (d : Dict), WF d = true →
    (∀ l ∈ ps, l ≠ endKey) → (addParts ps d).isSome = true := by
  intro ps
  induction ps with
  | nil => intro d _ _; rfl
  | cons p ps ih =>
    intro d hw hl
    have hps : ∀ l ∈ ps, l ≠ endKey := fun l h => hl l (List.mem_cons_of_mem _ h)
    unfold addParts
    cases hfind : dfind? d p with
    | none =>
      have h1 := ih Dict.nil rfl hps
      cases hsub : addParts ps Dict.nil with
      | none => rw [hsub] at h1; simp at h1
      | some sub => simp
    | some v =>
      cases v with
      | none =>
        exact absurd (WF_mark_key hw hfind) (hl p (List.mem_cons_self _ _))
      | some sub =>
        have h1 := ih sub (WF_child hw hfind) hps
        cases hsub : addParts ps sub with
        | none => rw [hsub] at h1; simp at h1
        | some sub2 => dsimp only; rw [hsub]; rfl

theorem addParts_WF : ∀ (ps : List String) (d d' : Dict), WF d = true →
    (∀ l ∈ ps, l ≠ endKey) → addParts ps d = some d' → WF d' = true := by
  intro ps
  induction ps with
  | nil =>
    intro d d' hw _ h
    have hd : dsetMark d endKey = d' := Option.some.inj h
    rw [← hd]
    exact WF_dsetMark hw
  | cons p ps ih =>
    intro d d' hw hl h
    have hps : ∀ l ∈ ps, l ≠ endKey := fun l hm => hl l (List.mem_cons_of_mem _ hm)
    have hpne : p ≠ endKey := hl p (List.mem_cons_self _ _)
    unfold addParts at h
    cases hfind : dfind? d p with
    | none =>
      rw [hfind] at h
      cases hsub : addParts ps Dict.nil with
      | none => rw [hsub] at h; exact Option.noConfusion h
      | some sub =>
        rw [hsub] at h
        have hd : dsetNode d p sub = d' := Option.some.inj h
        rw [← hd]
        exact WF_dsetNode hw hpne (ih Dict.nil sub rfl hps hsub)
    | some v =>
      cases v with
      | none => exact absurd (WF_mark_key hw hfind) hpne
      | some sub =>
        rw [hfind] at h
        dsimp only at h
        cases hsub : addParts ps sub with
        | none => rw [hsub] at h; exact Option.noConfusion h
        | some sub2 =>
          rw [hsub] at h
          have hd : dsetNode d p sub2 = d' := Option.some.inj h
          rw [← hd]
          exact WF_dsetNode hw hpne (ih sub sub2 (WF_child hw hfind) hps hsub)

theorem addParts_root_mem {d d' : Dict} {p : String} {ps : List String}
    (h : addParts (p :: ps) d = some d') (hp : p ≠ endKey) :
    dmem d' endKey = dmem d endKey := by
  have hpb : (p == endKey) = false := by simpa using hp
  unfold addParts at h
  cases hfind : dfind? d p with
  | none =>
    rw [hfind] at h
    cases hsub : addParts ps Dict.nil with
    | none => rw [hsub] at h; exact Option.noConfusion h
    | some sub =>
      rw [hsub] at h
      have hd : dsetNode d p sub = d' := Option.some.inj h
      rw [← hd, dmem_dsetNode, hpb, Bool.false_or]
  | some v =>
    cases v with
    | none => rw [hfind] at h; exact Option.noConfusion h
    | some sub =>
      rw [hfind] at h
      dsimp only at h
      cases hsub : addParts ps sub with
      | none => rw [hsub] at h; exact Option.noConfusion h
      | some sub2 =>
        rw [hsub] at h
        have hd : dsetNode d p sub2 = d' := Option.some.inj h
        rw [← hd, dmem_dsetNode, hpb, Bool.false_or]

/-- Unfolding lemma for term on a non-empty path. -/
theorem term_cons (p : String) (ps : List String) (d : Dict) :
    term (p :: ps) d
      = match dfind? d p with
        | some (some sub) => term ps sub
        | _ => false := rfl

/-- Inserting a reversed label list adds exactly that one path to the
set of stored paths. -/
theorem addParts_term : ∀ (ks : List String) (d d' : Dict), WF d = true →
    (∀ l ∈ ks, l ≠ endKey) → addParts ks d = some d' →
    ∀ qs : List String, term qs d' = (term qs d || qs == ks) := by
  intro ks
  induction ks with
  | nil =>
    intro d d' hw _ h qs
    have hd : dsetMark d endKey = d' := Option.some.inj h
    rw [← hd]
    cases qs with
    | nil =>
      show dmem (dsetMark d endKey) endKey = (dmem d endKey || (([] : List String) == []))
      rw [dmem_dsetMark]
      simp
    | cons q qs =>
      by_cases hq : endKey = q
      · subst hq
        have hL : term (endKey :: qs) (dsetMark d endKey) = false := by
          rw [term_cons, dfind?_dsetMark, if_pos rfl]
        rw [hL, term_end_cons hw]
        rfl
      · have hL : term (q :: qs) (dsetMark d endKey) = term (q :: qs) d := by
          rw [term_cons, dfind?_dsetMark, if_neg hq, ← term_cons]
        rw [hL]
        have hb : ((q :: qs) == ([] : List String)) = false := rfl
        rw [hb, Bool.or_false]
  | cons k ks ih =>
    intro d d' hw hl h qs
    have hks : ∀ l ∈ ks, l ≠ endKey := fun l hm => hl l (List.mem_cons_of_mem _ hm)
    have hkne : k ≠ endKey := hl k (List.mem_cons_self _ _)
    have hkb : (k == endKey) = false := by simpa using hkne
    unfold addParts at h
    cases hfind : dfind? d k with
    | none =>
      rw [hfind] at h
      dsimp only at h
      cases hsub : addParts ks Dict.nil with
      | none => rw [hsub] at h; exact Option.noConfusion h
      | some sub =>
        rw [hsub] at h
        have hd : dsetNode d k sub = d' := Option.some.inj h
        rw [← hd]
        have hterm := ih Dict.nil sub rfl hks hsub
        cases qs with
        | nil =>
          show dmem (dsetNode d k sub) endKey
            = (dmem d endKey || (([] : List String) == k :: ks))
          rw [dmem_dsetNode, hkb, Bool.false_or]
          have hb : (([] : List String) == k :: ks) = false := rfl
          rw [hb, Bool.or_false]
        | cons q qs =>
          by_cases hq : k = q
          · subst hq
            have hL : term (k :: qs) (dsetNode d k sub) = term qs sub := by
              rw [term_cons, dfind?_dsetNode, if_pos rfl]
            have hRd : term (k :: qs) d = false := by
              rw [term_cons, hfind]
            rw [hL, hterm qs, term_nil, Bool.false_or, hRd, Bool.false_or]
            show (qs == ks) = (k == k && qs == ks)
            simp
          · have hL : term (q :: qs) (dsetNode d k sub) = term (q :: qs) d := by
              rw [term_cons, dfind?_dsetNode, if_neg hq, ← term_cons]
            rw [hL]
            have hqb : (q == k) = false := by simpa using fun he => hq he.symm
            have hb : ((q :: qs) == (k :: ks)) = false := by
              show (q == k && qs == ks) = false
              rw [hqb, Bool.false_and]
            rw [hb, Bool.or_false]
    | some v =>
      cases v with
      | none => exact absurd (WF_mark_key hw hfind) hkne
      | some sub0 =>
        rw [hfind] at h
        dsimp only at h
        cases hsub : addParts ks sub0 with
        | none => rw [hsub] at h; exact Option.noConfusion h
        | some sub2 =>
          rw [hsub] at h
          have hd : dsetNode d k sub2 = d' := Option.some.inj h
          rw [← hd]
          have hterm := ih sub0 sub2 (WF_child hw hfind) hks hsub
          cases qs with
          | nil =>
            show dmem (dsetNode d k sub2) endKey
              = (dmem d endKey || (([] : List String) == k :: ks))
            rw [dmem_dsetNode, hkb, Bool.false_or]
            have hb : (([] : List String) == k :: ks) = false := rfl
            rw [hb, Bool.or_false]
          | cons q qs =>
            by_cases hq : k = q
            · subst hq
              have hL : term (k :: qs) (dsetNode d k sub2) = term qs sub2 := by
                rw [term_cons, dfind?_dsetNode, if_pos rfl]
              have hRd : term (k :: qs) d = term qs sub0 := by
                rw [term_cons, hfind]
              rw [hL, hterm qs, hRd]
              show (term qs sub0 || qs == ks) = (term qs sub0 || (k == k && qs == ks))
              simp
            · have hL : term (q :: qs) (dsetNode d k sub2) = term (q :: qs) d := by
                rw [term_cons, dfind?_dsetNode, if_neg hq, ← term_cons]
              rw [hL]
              have hqb : (q == k) = false := by simpa using fun he => hq he.symm
              have hb : ((q :: qs) == (k :: ks)) = false := by
                show (q == k && qs == ks) = false
                rw [hqb, Bool.false_and]
              rw [hb, Bool.or_false]

/-- Building from a key list on a clean start: the result is
well-formed, has no root-level end mark, and its stored paths are
exactly the reversed inserted keys. -/
theorem addKeys_spec : ∀ (KS : List (List String)) (d t : Dict), WF d = true →
    dmem d endKey = false →
    (∀ k ∈ KS, k ≠ [] ∧ ∀ l ∈ k, l ≠ endKey) →
    addKeys KS d = some t →
    WF t = true ∧ dmem t endKey = false ∧
      ∀ qs, term qs t = (term qs d || KS.any (fun k => qs == k.reverse)) := by
  intro KS
  induction KS with
  | nil =>
    intro d t hw hnd _ h
    have hd : d = t := Option.some.inj h
    subst hd
    exact ⟨hw, hnd, fun qs => by simp⟩
  | cons k ks ih =>
    intro d t hw hnd hKS h
    have hk := hKS k (List.mem_cons_self _ _)
    have hks : ∀ k2 ∈ ks, k2 ≠ [] ∧ ∀ l ∈ k2, l ≠ endKey :=
      fun k2 hm => hKS k2 (List.mem_cons_of_mem _ hm)
    have hlab : ∀ l ∈ k.reverse, l ≠ endKey := fun l hm => hk.2 l (List.mem_reverse.mp hm)
    unfold addKeys at h
    cases hadd : addParts k.reverse d with
    | none => rw [hadd] at h; exact Option.noConfusion h
    | some d2 =>
      rw [hadd] at h
      dsimp only at h
      have hw2 : WF d2 = true := addParts_WF k.reverse d d2 hw hlab hadd
      have hnd2 : dmem d2 endKey = dmem d endKey := by
        cases hkrev : k.reverse with
        | nil => exact absurd (List.reverse_eq_nil_iff.mp hkrev) hk.1
        | cons p ps =>
          rw [hkrev] at hadd
          refine addParts_root_mem hadd ?_
          exact hlab p (by rw [hkrev]; exact List.mem_cons_self _ _)
      obtain ⟨hwt, hndt, hterm⟩ := ih d2 t hw2 (by rw [hnd2]; exact hnd) hks h
      refine ⟨hwt, hndt, fun qs => ?_⟩
      rw [hterm qs, addParts_term k.reverse d d2 hw hlab hadd qs, List.any_cons,
        Bool.or_assoc]

/-- Unfolding lemma for queryParts on a non-empty path. -/
theorem queryParts_cons (p : String) (ps : List String) (d : Dict) :
    queryParts (p :: ps) d
      = match dfind? d p with
        | none => some false
        | some (some sub) => if dmem sub endKey then some true else queryParts ps sub
        | some none => none := rfl

/-- Unfolding lemma for sem on a non-empty path. -/
theorem sem_cons (p : String) (ps : List String) (d : Dict) :
    sem (p :: ps) d
      = match dfind? d p with
        | some (some sub) => dmem sub endKey || sem ps sub
        | _ => false := rfl

/-- On a well-formed trie with no root-level end mark, the query loop
never raises and computes sem. -/
theorem queryParts_eq_sem : ∀ (ps : List String) (d : Dict), WF d = true →
    dmem d endKey = false → queryParts ps d = some (sem ps d) := by
  intro ps
  induction ps with
  | nil => intro d _ _; rfl
  | cons p ps ih =>
    intro d hw hnd
    rw [queryParts_cons, sem_cons]
    cases hfind : dfind? d p with
    | none => rfl
    | some v =>
      cases v with
      | none =>
        have hp : p = endKey := WF_mark_key hw hfind
        subst hp
        have hmem : dmem d endKey = true := by unfold dmem; rw [hfind]; rfl
        rw [hmem] at hnd
        exact Bool.noConfusion hnd
      | some sub =>
        dsimp only
        by_cases hm : dmem sub endKey = true
        · simp [hm]
        · have hm2 : dmem sub endKey = false := by simpa using hm
          simp only [hm2, Bool.false_or, if_neg]
          exact ih sub (WF_child hw hfind) hm2

/-- sem answers true exactly when some non-empty prefix of the reversed
path reaches a stored path. -/
theorem sem_iff_term : ∀ (ps : List String) (d : Dict), ps ≠ [] →
    (sem ps d = true ↔ ∃ n, 0 < n ∧ term (List.take n ps) d = true) := by
  intro ps
  induction ps with
  | nil => intro d h; exact absurd rfl h
  | cons p ps ih =>
    intro d _
    rw [sem_cons]
    cases hfind : dfind? d p with
    | none =>
      dsimp only
      constructor
      · intro h; exact Bool.noConfusion h
      · rintro ⟨n, hn, ht⟩
        cases n with
        | zero => exact absurd hn (lt_irrefl 0)
        | succ m =>
          rw [List.take_succ_cons, term_cons, hfind] at ht
          exact Bool.noConfusion ht
    | some v =>
      cases v with
      | none =>
        dsimp only
        constructor
        · intro h; exact Bool.noConfusion h
        · rintro ⟨n, hn, ht⟩
          cases n with
          | zero => exact absurd hn (lt_irrefl 0)
          | succ m =>
            rw [List.take_succ_cons, term_cons, hfind] at ht
            exact Bool.noConfusion ht
      | some sub =>
        dsimp only
        have key : ∀ n : Nat, term (List.take (n + 1) (p :: ps)) d = term (List.take n ps) sub := by
          intro n
          rw [List.take_succ_cons, term_cons, hfind]
        constructor
        · intro h
          rw [Bool.or_eq_true] at h
          rcases h with hmark | hsem
          · refine ⟨1, Nat.one_pos, ?_⟩
            rw [key 0]
            exact hmark
          · by_cases hps : ps = []
            · subst hps
              refine ⟨1, Nat.one_pos, ?_⟩
              rw [key 0]
              exact hsem
            · obtain ⟨m, hm, ht⟩ := (ih sub hps).mp hsem
              refine ⟨m + 1, Nat.succ_pos _, ?_⟩
              rw [key m]
              exact ht
        · rintro ⟨n, hn, ht⟩
          rw [Bool.or_eq_true]
          cases n with
          | zero => exact absurd hn (lt_irrefl 0)
          | succ m =>
            rw [key m] at ht
            cases m with
            | zero => exact Or.inl ht
            | succ m2 =>
              by_cases hps : ps = []
              · subst hps
                exact Or.inl ht
              · exact Or.inr ((ih sub hps).mpr ⟨m2 + 1, Nat.succ_pos _, ht⟩)

/-! ## Suffix-test lemmas -/

theorem listPre_iff : ∀ a b : List String, listPre a b = true ↔ ∃ u, a ++ u = b := by
  intro a
  induction a with
  | nil => intro b; simp [listPre]
  | cons x ra ih =>
    intro b
    cases b with
    | nil =>
      simp [listPre]
    | cons y rb =>
      simp only [listPre, Bool.and_eq_true, beq_iff_eq]
      constructor
      · rintro ⟨hxy, hp⟩
        obtain ⟨u, hu⟩ := (ih rb).mp hp
        exact ⟨u, by rw [List.cons_append, hxy, hu]⟩
      · rintro ⟨u, hu⟩
        rw [List.cons_append] at hu
        injection hu with h1 h2
        exact ⟨h1, (ih rb).mpr ⟨u, h2⟩⟩

theorem isSuffKey_iff (k D : List String) : isSuffKey k D = true ↔ ∃ t, t ++ k = D := by
  unfold isSuffKey
  rw [listPre_iff]
  constructor
  · rintro ⟨u, hu⟩
    refine ⟨u.reverse, ?_⟩
    have h2 := congrArg List.reverse hu
    simpa [List.reverse_append] using h2
  · rintro ⟨t, ht⟩
    refine ⟨t.reverse, ?_⟩
    rw [← ht]
    simp [List.reverse_append]

theorem isSuffKey_spec (k D : List String) :
    isSuffKey k D = true ↔ (D = k ∨ ∃ pre, pre ≠ [] ∧ D = pre ++ k) := by
  rw [isSuffKey_iff]
  constructor
  · rintro ⟨t, ht⟩
    cases t with
    | nil => exact Or.inl (by simpa using ht.symm)
    | cons a ts => exact Or.inr ⟨a :: ts, by simp, ht.symm⟩
  · rintro (h | ⟨pre, _, hpre⟩)
    exacts [⟨[], by simp [h]⟩, ⟨pre, hpre.symm⟩]

theorem isSuffKey_nil {k : List String} (hk : k ≠ []) : isSuffKey k [] = false := by
  cases hsk : isSuffKey k [] with
  | false => rfl
  | true =>
    obtain ⟨t, ht⟩ := (isSuffKey_iff k []).mp hsk
    exact absurd (List.append_eq_nil.mp ht).2 hk

theorem take_rev_iff (k D : List String) (hk : k ≠ []) :
    (∃ n, 0 < n ∧ D.reverse.take n = k.reverse) ↔ isSuffKey k D = true := by
  rw [isSuffKey_iff]
  constructor
  · rintro ⟨n, _, ht⟩
    refine ⟨(D.reverse.drop n).reverse, ?_⟩
    have hD : D.reverse = k.reverse ++ D.reverse.drop n := by
      rw [← ht]
      exact (List.take_append_drop n D.reverse).symm
    have h2 := congrArg List.reverse hD
    simpa [List.reverse_append] using h2.symm
  · rintro ⟨t, ht⟩
    refine ⟨k.length, List.length_pos.mpr hk, ?_⟩
    rw [← ht, List.reverse_append, ← List.length_reverse k]
    exact List.take_left _ _

/-- Any query against an empty trie answers false. -/
theorem queryParts_nil (ps : List String) : queryParts ps Dict.nil = some false := by
  cases ps <;> rfl

theorem is_subdomain_or_match_nil (d : String) :
    is_subdomain_or_match Dict.nil d = some false := by
  unfold is_subdomain_or_match
  split
  · rfl
  · exact queryParts_nil _

theorem anyMatch_nil (ds : List String) : anyMatch Dict.nil ds = some false := by
  induction ds with
  | nil => rfl
  | cons d ds ih => simp [anyMatch, is_subdomain_or_match_nil, ih]

theorem keepLine_nil_white (b : Dict) (line : String) :
    keepLine Dict.nil b line = some false := by
  unfold keepLine
  dsimp only
  split_ifs <;> simp [anyMatch_nil]

theorem filterLines_nil_white (b : Dict) (lines : List String) :
    filterLines Dict.nil b lines = some [] := by
  induction lines with
  | nil => rfl
  | cons l ls ih => simp [filterLines, keepLine_nil_white, ih]

/-! ## Heap primitive lemmas -/

theorem hget_nil (a : Nat) : hget [] a = [] := by cases a <;> rfl

theorem hget_out : ∀ {H : Heap} {a : Nat}, H.length ≤ a → hget H a = [] := by
  intro H
  induction H with
  | nil => intro a _; exact hget_nil a
  | cons c H ih =>
    intro a ha
    cases a with
    | zero => exact absurd ha (by simp)
    | succ n => exact ih (Nat.le_of_succ_le_succ ha)

theorem hlen_hset (H : Heap) (a : Nat) (c : HCell) : (hset H a c).length = H.length :=
  List.length_set H a c

theorem hget_hset_same : ∀ {H : Heap} {a : Nat} (c : HCell), a < H.length →
    hget (hset H a c) a = c := by
  intro H
  induction H with
  | nil => intro a c h; exact absurd h (by simp)
  | cons x H ih =>
    intro a c h
    cases a with
    | zero => rfl
    | succ n => exact ih c (Nat.lt_of_succ_lt_succ h)

theorem hget_hset_other : ∀ {H : Heap} {a b : Nat} (c : HCell), b ≠ a →
    hget (hset H a c) b = hget H b := by
  intro H
  induction H with
  | nil => intro a b c _; rfl
  | cons x H ih =>
    intro a b c hne
    cases a with
    | zero =>
      cases b with
      | zero => exact absurd rfl hne
      | succ m => rfl
    | succ n =>
      cases b with
      | zero => rfl
      | succ m => exact ih c (fun he => hne (by rw [he]))

theorem hget_append_lt : ∀ {H : Heap} {a : Nat} (X : Heap), a < H.length →
    hget (H ++ X) a = hget H a := by
  intro H
  induction H with
  | nil => intro a X h; exact absurd h (by simp)
  | cons x H ih =>
    intro a X h
    cases a with
    | zero => rfl
    | succ n => exact ih X (Nat.lt_of_succ_lt_succ h)

theorem hget_append_len : ∀ (H : Heap) (c : HCell), hget (H ++ [c]) H.length = c := by
  intro H
  induction H with
  | nil => intro c; rfl
  | cons x H ih => intro c; exact ih c

theorem cfind?_cset : ∀ (c : HCell) (q : String) (v : HVal) (k : String),
    cfind? (cset c q v) k = if q = k then some v else cfind? c k := by
  intro c
  induction c with
  | nil =>
    intro q v k
    by_cases h : q = k <;> simp [cset, cfind?, h]
  | cons kv r ih =>
    obtain ⟨k0, v0⟩ := kv
    intro q v k
    by_cases h0 : k0 = q
    · subst h0
      simp only [cset, if_pos rfl]
      by_cases h : k0 = k <;> simp [cfind?, h]
    · simp only [cset, if_neg h0]
      by_cases h : k0 = k
      · subst h
        have hq : ¬ q = k0 := fun he => h0 he.symm
        simp [cfind?, hq]
      · simp [cfind?, h, ih]

/-! ## Reference-bound lemmas -/

theorem cellRefsBelow_find : ∀ {n : Nat} {c : HCell}, cellRefsBelow n c = true →
    ∀ {k : String} {b : Nat}, cfind? c k = some (HVal.ref b) → b < n := by
  intro n c
  induction c with
  | nil => intro _ k b hf; exact absurd hf (by simp [cfind?])
  | cons kv r ih =>
    obtain ⟨k0, v0⟩ := kv
    intro h k b hf
    simp only [cfind?] at hf
    cases v0 with
    | ref b0 =>
      simp only [cellRefsBelow, Bool.and_eq_true, decide_eq_true_eq] at h
      by_cases hk : k0 = k
      · rw [if_pos hk] at hf
        have : b0 = b := by
          injection hf with hf2
          injection hf2
        rw [← this]
        exact h.1
      · rw [if_neg hk] at hf
        exact ih h.2 hf
    | mark =>
      simp only [cellRefsBelow] at h
      by_cases hk : k0 = k
      · rw [if_pos hk] at hf
        cases hf
      · rw [if_neg hk] at hf
        exact ih h hf

theorem cellRefsBelow_mono : ∀ {n m : Nat} {c : HCell}, cellRefsBelow n c = true →
    n ≤ m → cellRefsBelow m c = true := by
  intro n m c
  induction c with
  | nil => intro _ _; rfl
  | cons kv r ih =>
    obtain ⟨k0, v0⟩ := kv
    intro h hnm
    cases v0 with
    | ref b0 =>
      simp only [cellRefsBelow, Bool.and_eq_true, decide_eq_true_eq] at h ⊢
      exact ⟨Nat.lt_of_lt_of_le h.1 hnm, ih h.2 hnm⟩
    | mark =>
      simp only [cellRefsBelow] at h ⊢
      exact ih h hnm

theorem cellRefsBelow_cset_mark : ∀ {n : Nat} {c : HCell} (q : String),
    cellRefsBelow n c = true → cellRefsBelow n (cset c q HVal.mark) = true := by
  intro n c
  induction c with
  | nil => intro q _; rfl
  | cons kv r ih =>
    obtain ⟨k0, v0⟩ := kv
    intro q h
    by_cases hk : k0 = q
    · subst hk
      simp only [cset, if_pos rfl]
      cases v0 with
      | ref b0 =>
        simp only [cellRefsBelow, Bool.and_eq_true] at h
        simp only [cellRefsBelow]
        exact h.2
      | mark => exact h
    · simp only [cset, if_neg hk]
      cases v0 with
      | ref b0 =>
        simp only [cellRefsBelow, Bool.and_eq_true] at h ⊢
        exact ⟨h.1, ih q h.2⟩
      | mark =>
        simp only [cellRefsBelow] at h ⊢
        exact ih q h

theorem cellRefsBelow_cset_ref : ∀ {n : Nat} {c : HCell} (q : String) {b : Nat},
    cellRefsBelow n c = true → b < n → cellRefsBelow n (cset c q (HVal.ref b)) = true := by
  intro n c
  induction c with
  | nil =>
    intro q b _ hb
    simp [cset, cellRefsBelow, hb]
  | cons kv r ih =>
    obtain ⟨k0, v0⟩ := kv
    intro q b h hb
    by_cases hk : k0 = q
    · subst hk
      simp only [cset, if_pos rfl]
      cases v0 with
      | ref b0 =>
        simp only [cellRefsBelow, Bool.and_eq_true, decide_eq_true_eq] at h ⊢
        exact ⟨hb, h.2⟩
      | mark =>
        simp only [cellRefsBelow] at h
        simp only [cellRefsBelow, Bool.and_eq_true, decide_eq_true_eq]
        exact ⟨hb, h⟩
    · simp only [cset, if_neg hk]
      cases v0 with
      | ref b0 =>
        simp only [cellRefsBelow, Bool.and_eq_true, decide_eq_true_eq] at h ⊢
        exact ⟨h.1, ih q h.2 hb⟩
      | mark =>
        simp only [cellRefsBelow] at h ⊢
        exact ih q h hb

/-! ## Heap validity lemmas -/

theorem hset_out : ∀ {H : Heap} {a : Nat}, H.length ≤ a → ∀ c, hset H a c = H := by
  intro H
  induction H with
  | nil => intro a _ c; rfl
  | cons x H ih =>
    intro a ha c
    cases a with
    | zero => exact absurd ha (by simp)
    | succ n =>
      show x :: hset H n c = x :: H
      rw [ih (Nat.le_of_succ_le_succ ha)]

theorem all_cell : ∀ (H : Heap) (n : Nat), H.all (cellRefsBelow n) = true →
    ∀ a, cellRefsBelow n (hget H a) = true := by
  intro H
  induction H with
  | nil => intro n _ a; rw [hget_nil]; rfl
  | cons c H ih =>
    intro n h a
    rw [List.all_cons, Bool.and_eq_true] at h
    cases a with
    | zero => exact h.1
    | succ m => exact ih n h.2 m

theorem HValid_cell {H : Heap} (hv : HValid H = true) (a : Nat) :
    cellRefsBelow H.length (hget H a) = true :=
  all_cell H H.length hv a

theorem all_hset : ∀ (H : Heap) (n a : Nat) (c : HCell),
    H.all (cellRefsBelow n) = true → cellRefsBelow n c = true →
    (hset H a c).all (cellRefsBelow n) = true := by
  intro H
  induction H with
  | nil => intro n a c h _; exact h
  | cons x H ih =>
    intro n a c h hc
    rw [List.all_cons, Bool.and_eq_true] at h
    cases a with
    | zero =>
      show (c :: H).all _ = true
      rw [List.all_cons, Bool.and_eq_true]
      exact ⟨hc, h.2⟩
    | succ m =>
      show (x :: hset H m c).all _ = true
      rw [List.all_cons, Bool.and_eq_true]
      exact ⟨h.1, ih n m c h.2 hc⟩

theorem all_below_mono {H : Heap} {n m : Nat} (h : H.all (cellRefsBelow n) = true)
    (hnm : n ≤ m) : H.all (cellRefsBelow m) = true := by
  rw [List.all_eq_true] at h ⊢
  exact fun c hc => cellRefsBelow_mono (h c hc) hnm

theorem HValid_hset {H : Heap} (hv : HValid H = true) (a : Nat) {c : HCell}
    (hc : cellRefsBelow H.length c = true) : HValid (hset H a c) = true := by
  unfold HValid
  rw [hlen_hset]
  exact all_hset H H.length a c hv hc

theorem HValid_alloc (H : Heap) (hv : HValid H = true) (d : Nat) (k0 : String) :
    HValid (hset (H ++ [[]]) d (cset (hget H d) k0 (HVal.ref H.length))) = true := by
  unfold HValid
  rw [hlen_hset, List.length_append]
  apply all_hset
  · rw [List.all_append, Bool.and_eq_true]
    constructor
    · exact all_below_mono hv (by simp)
    · rfl
  · exact cellRefsBelow_cset_ref k0
      (cellRefsBelow_mono (HValid_cell hv d) (by simp))
      (by simp)

/-! ## Reachability lemmas -/

theorem hreach_trans {H : Heap} {r b c : Nat} (h1 : HReach H r b) (h2 : HReach H b c) :
    HReach H r c := by
  induction h2 with
  | refl => exact h1
  | step k _ hf ih => exact HReach.step k ih hf

theorem hreach_lt {H : Heap} (hv : HValid H = true) {r : Nat} (hr : r < H.length) :
    ∀ {a : Nat}, HReach H r a → a < H.length := by
  intro a h
  induction h with
  | refl => exact hr
  | step k _ hf _ => exact cellRefsBelow_find (HValid_cell hv _) hf

theorem reach_pointwise {H H2 : Heap}
    (hp : ∀ b k c, cfind? (hget H2 b) k = some (HVal.ref c) →
      cfind? (hget H b) k = some (HVal.ref c)) {x : Nat} :
    ∀ {y : Nat}, HReach H2 x y → HReach H x y := by
  intro y h
  induction h with
  | refl => exact HReach.refl
  | step k _ hf ih => exact HReach.step k ih (hp _ k _ hf)

theorem reach_empty {H : Heap} {r : Nat} (h0 : hget H r = []) :
    ∀ {y : Nat}, HReach H r y → y = r := by
  intro y h
  induction h with
  | refl => rfl
  | step k _ hf ih =>
    rw [ih, h0] at hf
    exact absurd hf (by simp [cfind?])

/-! ## Evolution lemmas -/

theorem evolves_refl (H : Heap) : Evolves H H :=
  ⟨Nat.le_refl _, fun _ _ _ _ hf _ => hf, fun a _ _ ha hf => by
    rw [hget_out ha] at hf
    exact absurd hf (by simp [cfind?])⟩

theorem evolves_trans {H1 H2 H3 : Heap} (e1 : Evolves H1 H2) (e2 : Evolves H2 H3) :
    Evolves H1 H3 := by
  obtain ⟨l1, o1, f1⟩ := e1
  obtain ⟨l2, o2, f2⟩ := e2
  refine ⟨Nat.le_trans l1 l2, ?_, ?_⟩
  · intro a k c ha hf hc
    exact o1 a k c ha (o2 a k c (Nat.lt_of_lt_of_le ha l1) hf (Nat.lt_of_lt_of_le hc l1)) hc
  · intro a k c ha hf
    by_cases ha2 : a < H2.length
    · by_cases hc2 : c < H2.length
      · exact f1 a k c ha (o2 a k c ha2 hf hc2)
      · exact Nat.le_trans l1 (Nat.le_of_not_lt hc2)
    · exact Nat.le_trans l1 (f2 a k c (Nat.le_of_not_lt ha2) hf)

theorem evolves_markset (H : Heap) (d : Nat) (q : String) :
    Evolves H (hset H d (cset (hget H d) q HVal.mark)) := by
  by_cases hd : d < H.length
  · refine ⟨by rw [hlen_hset], ?_, ?_⟩
    · intro a k c ha hf _
      by_cases had : a = d
      · subst had
        rw [hget_hset_same _ hd, cfind?_cset] at hf
        by_cases hq : q = k
        · rw [if_pos hq] at hf; cases hf
        · rw [if_neg hq] at hf; exact hf
      · rw [hget_hset_other _ had] at hf
        exact hf
    · intro a k c ha hf
      have had : a ≠ d := fun he => absurd (he ▸ ha) (Nat.not_le_of_lt hd)
      rw [hget_hset_other _ had, hget_out ha] at hf
      exact absurd hf (by simp [cfind?])
  · rw [hset_out (Nat.le_of_not_lt hd)]
    exact evolves_refl H

theorem evolves_alloc (H : Heap) (d : Nat) (k0 : String) (hd : d < H.length) :
    Evolves H (hset (H ++ [[]]) d (cset (hget H d) k0 (HVal.ref H.length))) := by
  have hd2 : d < (H ++ [[]]).length := by
    rw [List.length_append]
    exact Nat.lt_succ_of_lt hd
  refine ⟨?_, ?_, ?_⟩
  · rw [hlen_hset, List.length_append]
    simp
  · intro a k c ha hf hc
    by_cases had : a = d
    · subst had
      rw [hget_hset_same _ hd2, cfind?_cset] at hf
      by_cases hq : k0 = k
      · rw [if_pos hq] at hf
        injection hf with hf2
        injection hf2 with hf3
        exact absurd (hf3 ▸ hc) (lt_irrefl _)
      · rw [if_neg hq] at hf
        exact hf
    · rw [hget_hset_other _ had, hget_append_lt _ ha] at hf
      exact hf
  · intro a k c ha hf
    by_cases hal : a = H.length
    · subst hal
      have hne : H.length ≠ d := fun he => absurd (he ▸ hd) (lt_irrefl _)
      rw [hget_hset_other _ hne, hget_append_len] at hf
      exact absurd hf (by simp [cfind?])
    · have hbig : (hset (H ++ [[]]) d (cset (hget H d) k0 (HVal.ref H.length))).length ≤ a := by
        rw [hlen_hset, List.length_append]
        simp only [List.length_cons, List.length_nil]
        omega
      rw [hget_out hbig] at hf
      exact absurd hf (by simp [cfind?])

theorem reach_evolves {H H2 : Heap} (hE : Evolves H H2) {x : Nat} :
    ∀ {y : Nat}, HReach H2 x y → y < H.length → HReach H x y := by
  intro y h
  induction h with
  | refl => exact fun _ => HReach.refl
  | @step b c k hr hf ih =>
    intro hy
    by_cases hb : b < H.length
    · exact HReach.step k (ih hb) (hE.2.1 b k c hb hf hy)
    · exact absurd (hE.2.2 b k c (Nat.le_of_not_lt hb) hf) (Nat.not_le_of_lt hy)

/-! ## Frame lemmas for the heap operations -/

theorem markset_pointwise (H : Heap) (d : Nat) (q : String) :
    ∀ b k c, cfind? (hget (hset H d (cset (hget H d) q HVal.mark)) b) k
      = some (HVal.ref c) → cfind? (hget H b) k = some (HVal.ref c) := by
  intro b k c hf
  by_cases hbd : b = d
  · subst hbd
    by_cases hdl : b < H.length
    · rw [hget_hset_same _ hdl, cfind?_cset] at hf
      by_cases hq : q = k
      · rw [if_pos hq] at hf; cases hf
      · rw [if_neg hq] at hf; exact hf
    · rw [hset_out (Nat.le_of_not_lt hdl)] at hf
      exact hf
  · rw [hget_hset_other _ hbd] at hf
    exact hf

theorem cellRefsBelow_cons {n : Nat} {k : String} {v : HVal} {rest : HCell}
    (h : cellRefsBelow n ((k, v) :: rest) = true) :
    cellRefsBelow n rest = true := by
  cases v with
  | ref b =>
    simp only [cellRefsBelow, Bool.and_eq_true] at h
    exact h.2
  | mark => exact h

/-- The merge loop only writes into cells reachable from the
destination or freshly allocated ones, only ever adds references that
point at fresh cells, and preserves heap validity. -/
theorem hmergeGo_frame : ∀ (fuel : Nat) (src : List (String × HVal)) (d : Nat) (H H2 : Heap),
    hmergeGo fuel src d H = some H2 →
    HValid H = true → d < H.length → cellRefsBelow H.length src = true →
    Evolves H H2 ∧ HValid H2 = true ∧
      ∀ a, a < H.length → ¬ HReach H d a → hget H2 a = hget H a := by
  intro fuel
  induction fuel with
  | zero =>
    intro src d H H2 h _ _ _
    exact Option.noConfusion h
  | succ fuel ih =>
    intro src d H H2 h hv hd hsrc
    cases src with
    | nil =>
      have he : H = H2 := Option.some.inj h
      subst he
      exact ⟨evolves_refl H, hv, fun _ _ _ => rfl⟩
    | cons kv rest =>
      obtain ⟨k, v⟩ := kv
      have hrest : cellRefsBelow H.length rest = true := cellRefsBelow_cons hsrc
      unfold hmergeGo at h
      by_cases hk : k = endKey
      · rw [if_pos hk] at h
        set H1 := hset H d (cset (hget H d) endKey HVal.mark) with hH1
        have hlen1 : H1.length = H.length := hlen_hset _ _ _
        have hv1 : HValid H1 = true :=
          HValid_hset hv d (cellRefsBelow_cset_mark endKey (HValid_cell hv d))
        obtain ⟨e1, v1, f1⟩ := ih rest d H1 H2 h hv1 (by rw [hlen1]; exact hd)
          (by rw [hlen1]; exact hrest)
        refine ⟨evolves_trans (evolves_markset H d endKey) e1, v1, ?_⟩
        intro a ha hna
        have hane : a ≠ d := fun he => hna (he ▸ HReach.refl)
        have hstep1 : hget H1 a = hget H a := hget_hset_other _ hane
        have hna1 : ¬ HReach H1 d a := fun hr =>
          hna (reach_pointwise (markset_pointwise H d endKey) hr)
        rw [f1 a (by rw [hlen1]; exact ha) hna1, hstep1]
      · rw [if_neg hk] at h
        cases v with
        | mark =>
          dsimp only at h
          exact Option.noConfusion h
        | ref s =>
          dsimp only at h
          cases hfind : cfind? (hget H d) k with
          | none =>
            rw [hfind] at h
            dsimp only at h
            set H1 := hset (H ++ [[]]) d (cset (hget H d) k (HVal.ref H.length)) with hH1
            have hlen1 : H1.length = H.length + 1 := by
              rw [hH1, hlen_hset, List.length_append]
              simp
            have hv1 : HValid H1 = true := HValid_alloc H hv d k
            have hE01 : Evolves H H1 := evolves_alloc H d k hd
            cases hdesc : hmergeGo fuel (hget H1 s) H.length H1 with
            | none => rw [hdesc] at h; exact Option.noConfusion h
            | some H3 =>
              rw [hdesc] at h
              have hblt : H.length < H1.length := by
                rw [hlen1]
                exact Nat.lt_succ_self _
              obtain ⟨e13, v3, f13⟩ :=
                ih (hget H1 s) H.length H1 H3 hdesc hv1 hblt (HValid_cell hv1 s)
              have hE03 : Evolves H H3 := evolves_trans hE01 e13
              have hlen03 : H.length ≤ H3.length := hE03.1
              obtain ⟨e32, v2, f32⟩ := ih rest d H3 H2 h v3
                (Nat.lt_of_lt_of_le hd hlen03) (cellRefsBelow_mono hrest hlen03)
              refine ⟨evolves_trans hE03 e32, v2, ?_⟩
              intro a ha hna
              have hane : a ≠ d := fun he => hna (he ▸ HReach.refl)
              have hstep1 : hget H1 a = hget H a := by
                rw [hH1, hget_hset_other _ hane, hget_append_lt _ ha]
              have hbne : a ≠ H.length := fun he => absurd (he ▸ ha) (lt_irrefl _)
              have hempty : hget H1 H.length = [] := by
                rw [hH1, hget_hset_other _ (fun he => absurd (he ▸ hd) (lt_irrefl _)),
                  hget_append_len]
              have hna1 : ¬ HReach H1 H.length a := fun hr =>
                hbne (reach_empty hempty hr)
              have h31 : hget H3 a = hget H1 a :=
                f13 a (by rw [hlen1]; exact Nat.lt_succ_of_lt ha) hna1
              have hna3 : ¬ HReach H3 d a := fun hr =>
                hna (reach_evolves hE03 hr ha)
              have h23 : hget H2 a = hget H3 a :=
                f32 a (Nat.lt_of_lt_of_le ha hlen03) hna3
              rw [h23, h31, hstep1]
          | some v2 =>
            cases v2 with
            | mark =>
              rw [hfind] at h
              dsimp only at h
              exact Option.noConfusion h
            | ref b =>
              rw [hfind] at h
              dsimp only at h
              have hb : b < H.length := cellRefsBelow_find (HValid_cell hv d) hfind
              cases hdesc : hmergeGo fuel (hget H s) b H with
              | none => rw [hdesc] at h; exact Option.noConfusion h
              | some H3 =>
                rw [hdesc] at h
                obtain ⟨e13, v3, f13⟩ := ih (hget H s) b H H3 hdesc hv hb (HValid_cell hv s)
                obtain ⟨e32, v2', f32⟩ := ih rest d H3 H2 h v3
                  (Nat.lt_of_lt_of_le hd e13.1) (cellRefsBelow_mono hrest e13.1)
                refine ⟨evolves_trans e13 e32, v2', ?_⟩
                intro a ha hna
                have hRdb : HReach H d b := HReach.step k HReach.refl hfind
                have hnab : ¬ HReach H b a := fun hr => hna (hreach_trans hRdb hr)
                have h31 : hget H3 a = hget H a := f13 a ha hnab
                have hna3 : ¬ HReach H3 d a := fun hr =>
                  hna (reach_evolves e13 hr ha)
                have h23 : hget H2 a = hget H3 a :=
                  f32 a (Nat.lt_of_lt_of_le ha e13.1) hna3
                rw [h23, h31]

/-- The add loop writes only into cells reachable from its root or
freshly allocated ones, and preserves validity. -/
theorem haddParts_frame : ∀ (ps : List String) (r : Nat) (H H2 : Heap),
    haddParts ps r H = some H2 → HValid H = true → r < H.length →
    Evolves H H2 ∧ HValid H2 = true ∧
      ∀ a, a < H.length → ¬ HReach H r a → hget H2 a = hget H a := by
  intro ps
  induction ps with
  | nil =>
    intro r H H2 h hv _
    have he : hset H r (cset (hget H r) endKey HVal.mark) = H2 := Option.some.inj h
    rw [← he]
    refine ⟨evolves_markset H r endKey,
      HValid_hset hv r (cellRefsBelow_cset_mark endKey (HValid_cell hv r)), ?_⟩
    intro a _ hna
    exact hget_hset_other _ (fun he2 => hna (he2 ▸ HReach.refl))
  | cons p ps ih =>
    intro r H H2 h hv hr
    unfold haddParts at h
    cases hfind : cfind? (hget H r) p with
    | none =>
      rw [hfind] at h
      dsimp only at h
      set H1 := hset (H ++ [[]]) r (cset (hget H r) p (HVal.ref H.length)) with hH1
      have hlen1 : H1.length = H.length + 1 := by
        rw [hH1, hlen_hset, List.length_append]
        simp
      have hv1 : HValid H1 = true := HValid_alloc H hv r p
      have hE01 : Evolves H H1 := evolves_alloc H r p hr
      have hblt : H.length < H1.length := by
        rw [hlen1]
        exact Nat.lt_succ_self _
      obtain ⟨e12, v2, f12⟩ := ih H.length H1 H2 h hv1 hblt
      refine ⟨evolves_trans hE01 e12, v2, ?_⟩
      intro a ha hna
      have hane : a ≠ r := fun he => hna (he ▸ HReach.refl)
      have hstep1 : hget H1 a = hget H a := by
        rw [hH1, hget_hset_other _ hane, hget_append_lt _ ha]
      have hbne : a ≠ H.length := fun he => absurd (he ▸ ha) (lt_irrefl _)
      have hempty : hget H1 H.length = [] := by
        rw [hH1, hget_hset_other _ (fun he => absurd (he ▸ hr) (lt_irrefl _)),
          hget_append_len]
      have hna1 : ¬ HReach H1 H.length a := fun hr2 => hbne (reach_empty hempty hr2)
      rw [f12 a (by rw [hlen1]; exact Nat.lt_succ_of_lt ha) hna1, hstep1]
    | some v =>
      cases v with
      | mark =>
        rw [hfind] at h
        dsimp only at h
        exact Option.noConfusion h
      | ref b =>
        rw [hfind] at h
        dsimp only at h
        have hb : b < H.length := cellRefsBelow_find (HValid_cell hv r) hfind
        obtain ⟨e12, v2, f12⟩ := ih b H H2 h hv hb
        refine ⟨e12, v2, ?_⟩
        intro a ha hna
        have hRrb : HReach H r b := HReach.step p HReach.refl hfind
        exact f12 a ha (fun hr2 => hna (hreach_trans hRrb hr2))

/-- Unfolding lemma for the heap query loop on a non-empty path. -/
theorem hqueryParts_cons (p : String) (ps : List String) (r : Nat) (H : Heap) :
    hqueryParts (p :: ps) r H
      = match cfind? (hget H r) p with
        | none => some false
        | some (HVal.ref b) =>
            if cmem (hget H b) endKey then some true else hqueryParts ps b H
        | some HVal.mark => none := rfl

/-- A query only reads cells reachable from its root, so it is
insensitive to changes elsewhere in the heap. -/
theorem hqueryParts_frame : ∀ (ps : List String) (r : Nat) (H H2 : Heap),
    (∀ a, HReach H r a → hget H2 a = hget H a) →
    hqueryParts ps r H2 = hqueryParts ps r H := by
  intro ps
  induction ps with
  | nil =>
    intro r H H2 hp
    show some (cmem (hget H2 r) endKey) = some (cmem (hget H r) endKey)
    rw [hp r HReach.refl]
  | cons p ps ih =>
    intro r H H2 hp
    rw [hqueryParts_cons, hqueryParts_cons, hp r HReach.refl]
    cases hfind : cfind? (hget H r) p with
    | none => rfl
    | some v =>
      cases v with
      | mark => rfl
      | ref b =>
        have hRb : HReach H r b := HReach.step p HReach.refl hfind
        dsimp only
        rw [hp b hRb]
        by_cases hm : cmem (hget H b) endKey = true
        · simp [hm]
        · have hm2 : cmem (hget H b) endKey = false := by simpa using hm
          simp only [hm2, Bool.false_eq_true, if_false]
          exact ih b H H2 (fun a ha => hp a (hreach_trans hRb ha))

/-! ## Region lemmas -/

theorem cellRefsIn_find : ∀ {lo hi : Nat} {c : HCell}, cellRefsIn lo hi c = true →
    ∀ {k : String} {b : Nat}, cfind? c k = some (HVal.ref b) → lo ≤ b ∧ b < hi := by
  intro lo hi c
  induction c with
  | nil => intro _ k b hf; exact absurd hf (by simp [cfind?])
  | cons kv r ih =>
    obtain ⟨k0, v0⟩ := kv
    intro h k b hf
    simp only [cfind?] at hf
    cases v0 with
    | ref b0 =>
      simp only [cellRefsIn, Bool.and_eq_true, decide_eq_true_eq] at h
      by_cases hk : k0 = k
      · rw [if_pos hk] at hf
        have hb : b0 = b := by
          injection hf with hf2
          injection hf2
        rw [← hb]
        exact h.1
      · rw [if_neg hk] at hf
        exact ih h.2 hf
    | mark =>
      simp only [cellRefsIn] at h
      by_cases hk : k0 = k
      · rw [if_pos hk] at hf; cases hf
      · rw [if_neg hk] at hf; exact ih h hf

theorem cellRefsIn_below {lo hi : Nat} : ∀ {c : HCell}, cellRefsIn lo hi c = true →
    cellRefsBelow hi c = true := by
  intro c
  induction c with
  | nil => intro _; rfl
  | cons kv r ih =>
    obtain ⟨k0, v0⟩ := kv
    intro h
    cases v0 with
    | ref b0 =>
      simp only [cellRefsIn, Bool.and_eq_true, decide_eq_true_eq] at h
      simp only [cellRefsBelow, Bool.and_eq_true, decide_eq_true_eq]
      exact ⟨h.1.2, ih h.2⟩
    | mark => exact ih h

theorem regionOk_cell {H : Heap} {lo hi : Nat} (h : regionOk H lo hi = true)
    {a : Nat} (hlo : lo ≤ a) (hhi : a < hi) : cellRefsIn lo hi (hget H a) = true := by
  by_cases ha : a < H.length
  · unfold regionOk at h
    rw [List.all_eq_true] at h
    have h2 := h a (List.mem_range.mpr ha)
    simpa [hlo, hhi] using h2
  · rw [hget_out (Nat.le_of_not_lt ha)]
    rfl

theorem region_reach {H : Heap} {lo hi : Nat} (hreg : regionOk H lo hi = true)
    {r : Nat} (hlo : lo ≤ r) (hhi : r < hi) :
    ∀ {a : Nat}, HReach H r a → lo ≤ a ∧ a < hi := by
  intro a h
  induction h with
  | refl => exact ⟨hlo, hhi⟩
  | @step b c k _ hf ih => exact cellRefsIn_find (regionOk_cell hreg ih.1 ih.2) hf

theorem hget_eq_of_get? : ∀ {H : Heap} {n : Nat} {c : HCell}, H.get? n = some c →
    hget H n = c := by
  intro H
  induction H with
  | nil => intro n c h; cases n <;> cases h
  | cons x H ih =>
    intro n c h
    cases n with
    | zero => exact Option.some.inj h
    | succ m => exact ih h

theorem regions_valid {H : Heap} {m : Nat} (hA : regionOk H 0 m = true)
    (hB : regionOk H m H.length = true) (hm : m ≤ H.length) : HValid H = true := by
  unfold HValid
  rw [List.all_eq_true]
  intro c hc
  obtain ⟨n, hn⟩ := List.mem_iff_get?.mp hc
  have hnl : n < H.length := by
    by_contra hge
    rw [List.get?_eq_none.mpr (Nat.le_of_not_lt hge)] at hn
    cases hn
  have hgc : hget H n = c := hget_eq_of_get? hn
  rw [← hgc]
  by_cases hcm : n < m
  · exact cellRefsBelow_mono
      (cellRefsIn_below (regionOk_cell hA (Nat.zero_le _) hcm)) hm
  · exact cellRefsIn_below (regionOk_cell hB (Nat.le_of_not_lt hcm) hnl)

/-! ## C10: merge never mutates its source trie -/

/-- C10: on a heap whose addresses below m hold the destination trie
(rooted at r1) and whose addresses from m on hold the source trie
(rooted at r2), a completed merge_tries leaves every cell of the source
trie untouched, every query against the source trie unchanged, and a
subsequent add_domain into the destination trie still leaves every
query against the source trie unchanged: the nodes the merge adds to
the destination are fresh copies, never shared with the source. -/
theorem c10_merge_no_mutation (H : Heap) (m r1 r2 fuel : Nat) (H2 : Heap)
    (hA : regionOk H 0 m = true) (hB : regionOk H m H.length = true)
    (h1 : r1 < m) (h2lo : m ≤ r2) (h2hi : r2 < H.length)
    (hm : hmerge_tries fuel r1 r2 H = some H2) :
    (∀ a, HReach H r2 a → hget H2 a = hget H a) ∧
    (∀ ps, hqueryParts ps r2 H2 = hqueryParts ps r2 H) ∧
    (∀ dom H3, hadd_domain dom r1 H2 = some H3 →
      ∀ ps, hqueryParts ps r2 H3 = hqueryParts ps r2 H) := by
  have hmlen : m ≤ H.length := Nat.le_of_lt (Nat.lt_of_le_of_lt h2lo h2hi)
  have hv : HValid H = true := regions_valid hA hB hmlen
  have hr1 : r1 < H.length := Nat.lt_of_lt_of_le h1 hmlen
  have hreach1 : ∀ {a}, HReach H r1 a → a < m :=
    fun h => (region_reach hA (Nat.zero_le _) h1 h).2
  have hreach2 : ∀ {a}, HReach H r2 a → m ≤ a ∧ a < H.length :=
    fun h => region_reach hB h2lo h2hi h
  have hdisj : ∀ a, HReach H r2 a → ¬ HReach H r1 a := by
    intro a h2r h1r
    have hx := hreach1 h1r
    have hy := (hreach2 h2r).1
    omega
  obtain ⟨hE, hv2, hframe⟩ :=
    hmergeGo_frame fuel (hget H r2) r1 H H2 hm hv hr1 (HValid_cell hv r2)
  have huntouched : ∀ a, HReach H r2 a → hget H2 a = hget H a := by
    intro a hr
    exact hframe a (hreach2 hr).2 (hdisj a hr)
  refine ⟨huntouched, fun ps => hqueryParts_frame ps r2 H H2 huntouched, ?_⟩
  intro dom H3 hadd ps
  unfold hadd_domain at hadd
  by_cases hdom : dom = ""
  · rw [if_pos hdom] at hadd
    have he : H2 = H3 := Option.some.inj hadd
    rw [← he]
    exact hqueryParts_frame ps r2 H H2 huntouched
  · rw [if_neg hdom] at hadd
    have hr1b : r1 < H2.length := Nat.lt_of_lt_of_le hr1 hE.1
    obtain ⟨hE2, _, hframe2⟩ :=
      haddParts_frame (splitDots dom).reverse r1 H2 H3 hadd hv2 hr1b
    have huntouched3 : ∀ a, HReach H r2 a → hget H3 a = hget H a := by
      intro a hr
      have ha := (hreach2 hr).2
      have hna2 : ¬ HReach H2 r1 a := fun hx =>
        (hdisj a hr) (reach_evolves hE hx ha)
      rw [hframe2 a (Nat.lt_of_lt_of_le ha hE.1) hna2, huntouched a hr]
    exact hqueryParts_frame ps r2 H H3 huntouched3

/-- C10 witness: the theorem applied to the concrete separated heap,
with the merge run long enough to complete. -/
theorem c10_witness :
    (∀ a, HReach exHeap 2 a → hget exHeapM a = hget exHeap a) ∧
    (∀ ps, hqueryParts ps 2 exHeapM = hqueryParts ps 2 exHeap) ∧
    (∀ dom H3, hadd_domain dom 0 exHeapM = some H3 →
      ∀ ps, hqueryParts ps 2 H3 = hqueryParts ps 2 exHeap) :=
  c10_merge_no_mutation exHeap 2 0 2 10 exHeapM (by decide) (by decide)
    (by decide) (by decide) (by decide) (by decide)

/-! ## C2: keep iff allow-hit and no deny-hit -/

/-- C2: whenever a line yields at least one candidate domain and both
trie scans complete with a boolean, the classifier keeps the line
exactly when some candidate matched the allow trie and no candidate
matched the deny trie (deny takes precedence). -/
theorem c2_keep_iff (w b : Dict) (line : String) (aw ab : Bool)
    (hne : lineDomains line ≠ [])
    (hw : anyMatch w (lineDomains line) = some aw)
    (hb : anyMatch b (lineDomains line) = some ab) :
    keepLine w b line = some (aw && !ab) ∧
    filter_hosts_file w b [line] false = (if aw && !ab then [line] else []) := by
  have hkeep : keepLine w b line = some (aw && !ab) := by
    have hne2 := hne
    unfold lineDomains at hne2
    unfold keepLine
    dsimp only at hne2 ⊢
    by_cases h1 : (decide (pyStrip line = "") || hashStart (pyStrip line)) = true
    · rw [if_pos h1] at hne2
      exact absurd rfl hne2
    · rw [if_neg h1] at hne2 ⊢
      by_cases h2 : pyStrip (beforeHash (pyStrip line)) = ""
      · rw [if_pos h2] at hne2
        exact absurd rfl hne2
      · rw [if_neg h2] at hne2 ⊢
        set doms := ((pySplitWs (pyStrip (beforeHash (pyStrip line)))).map clean_domain).filter
            (fun d => d != "") with hdoms
        by_cases h3 : doms = []
        · exact absurd h3 hne2
        · rw [if_neg h3]
          have hdLD : lineDomains line = doms := by
            unfold lineDomains
            dsimp only
            rw [if_neg h1, if_neg h2]
          rw [hdLD] at hw hb
          rw [hw]
          cases aw with
          | false => rfl
          | true =>
            dsimp only
            rw [hb]
            rfl
  refine ⟨hkeep, ?_⟩
  have h4 : filter_hosts_file w b [line] false
      = match filterLines w b [line] with
        | none => []
        | some r => r := rfl
  rw [h4]
  unfold filterLines
  rw [hkeep]
  cases haw : aw && !ab <;> rfl

/-- C2 witness: with allow-set containing example.com and deny-set
containing tracker.example.com, the line "0.0.0.0 tracker.example.com"
matches both tries and is dropped. -/
theorem c2_witness :
    keepLine exWhite exBlack "0.0.0.0 tracker.example.com" = some (true && !true) ∧
    filter_hosts_file exWhite exBlack ["0.0.0.0 tracker.example.com"] false
      = (if true && !true then ["0.0.0.0 tracker.example.com"] else []) ∧
    keepLine exWhite exBlack "0.0.0.0 tracker.example.com" = some false := by
  have h := c2_keep_iff exWhite exBlack "0.0.0.0 tracker.example.com" true true
    (by decide) (by decide) (by decide)
  exact ⟨h.1, h.2, by decide⟩

/-! ## C5: ip_prefixed mode ignores the first token -/

theorem beforeHash_hashStart {s : String} (h : hashStart s = true) : beforeHash s = "" := by
  unfold hashStart at h
  unfold beforeHash
  cases hd : s.data with
  | nil => rfl
  | cons c cs =>
    rw [hd] at h
    have hc : c = '#' := by simpa using h
    rw [hc]
    rfl

theorem lineTokens_guard (l : String)
    (hg : (decide (pyStrip l = "") || hashStart (pyStrip l)) = true) :
    lineTokens l = [] := by
  rw [Bool.or_eq_true, decide_eq_true_eq] at hg
  rcases hg with h | h
  · unfold lineTokens
    rw [h]
    rfl
  · unfold lineTokens
    rw [beforeHash_hashStart h]
    rfl

/-- C5: in ip_prefixed mode (filter_hosts_by_domains of main.py) the
first whitespace token is dropped before matching: two lines that agree
on every token but the first classify identically, and the decision is
computed from the remaining tokens only. -/
theorem c5_first_token_excluded (target : List String) (l l2 : String)
    (t0 t0' : String) (rest : List String)
    (h : lineTokens l = t0 :: rest) (h2 : lineTokens l2 = t0' :: rest) :
    keepLineMain target l = keepLineMain target l2 ∧
    keepLineMain target l = decideTokens target (t0 :: rest) := by
  have key : ∀ (s : String) (u0 : String), lineTokens s = u0 :: rest →
      keepLineMain target s = decideTokens target (u0 :: rest) := by
    intro s u0 hs
    unfold keepLineMain
    dsimp only
    by_cases hg : (decide (pyStrip s = "") || hashStart (pyStrip s)) = true
    · rw [lineTokens_guard s hg] at hs
      exact absurd hs (by simp)
    · rw [if_neg hg]
      have hv : pySplitWs (pyStrip (beforeHash (pyStrip s))) = u0 :: rest := hs
      rw [hv]
  have k1 := key l t0 h
  have k2 := key l2 t0' h2
  refine ⟨?_, k1⟩
  rw [k1, k2]
  rfl

/-- C5 witness: replacing the IP token does not change the decision,
and the subdomain-free exact matching of main.py keeps the line whose
second token is in the target set. -/
theorem c5_witness :
    keepLineMain ["ads.example.com"] "0.0.0.0 ads.example.com"
      = keepLineMain ["ads.example.com"] "9.9.9.9 ads.example.com" ∧
    keepLineMain ["ads.example.com"] "0.0.0.0 ads.example.com" = true := by
  have h := c5_first_token_excluded ["ads.example.com"] "0.0.0.0 ads.example.com"
    "9.9.9.9 ads.example.com" "0.0.0.0" "9.9.9.9" ["ads.example.com"]
    (by decide) (by decide)
  exact ⟨h.1, by decide⟩

/-! ## C4: the normalizer does not collapse internal dot runs -/

/-- C4 counterexample: clean_domain preserves the doubled dot, so
normalize("a..b.com") differs from normalize("a.b.com"), and the
resulting key contains an empty label. -/
theorem c4_counterexample :
    clean_domain "a..b.com" = "a..b.com" ∧
    clean_domain "a.b.com" = "a.b.com" ∧
    clean_domain "a..b.com" ≠ clean_domain "a.b.com" ∧
    "" ∈ splitDots (clean_domain "a..b.com") := by
  refine ⟨by decide, by decide, by decide, by decide⟩

/-- C4 (amended): the normalizer strips only leading and trailing
whitespace and dots and leaves the interior of the token untouched, so
internal dot runs survive, normalize("a..b.com") = "a..b.com" and a
resulting domain key can contain an empty label. -/
theorem c4_amended :
    (∀ s : String, ∃ u v, u ++ (clean_domain s).data ++ v = s.data) ∧
    clean_domain " .a.b.com. " = "a.b.com" ∧
    clean_domain "a..b.com" = "a..b.com" ∧
    splitDots "a..b.com" = ["a", "", "b", "com"] :=
  ⟨clean_domain_slice, by decide, by decide, by decide⟩

/-! ## C6: an empty-but-successfully-built allow trie does not abort -/

/-- C6 counterexample: the allow source is fetched successfully and
yields zero valid entries, the built allow trie is empty, and the
filter_hosts.py workflow does not abort (a DomainTrie instance is
always truthy). -/
theorem c6_counterexample :
    build_trie_from_url [] false = some Dict.nil ∧
    whiteAborts [] false = false := by
  exact ⟨rfl, rfl⟩

/-- C6 (amended): filter_hosts.py aborts exactly when the allow build
returns None (a transport failure); a successfully built empty allow
trie is truthy, so the run proceeds and the empty allow trie then keeps
no line at all.  main.py, by contrast, does abort when its extracted
allow set is empty. -/
theorem c6_amended :
    whiteAborts [] false = false ∧
    build_trie_from_url [] false = some Dict.nil ∧
    (∀ lines, whiteAborts lines true = true) ∧
    (∀ b lines, filter_hosts_file Dict.nil b lines false = []) ∧
    mainpyAborts [] false = true := by
  refine ⟨rfl, rfl, fun _ => rfl, fun b lines => ?_, rfl⟩
  unfold filter_hosts_file
  simp [filterLines_nil_white]

/-! ## C7: only main.py appends the trailing newline -/

/-- C7 counterexample: filter_hosts.py persists a single kept line
without any trailing newline, so the persisted result is not the join
plus one trailing newline. -/
theorem c7_counterexample :
    persistFilter ["a"] = "a" ∧
    persistFilter ["a"] ≠ joinNL ["a"] ++ "\n" := by
  exact ⟨rfl, by decide⟩

/-- C7 (amended): main.py's sink writes the lines joined with a newline
plus exactly one trailing newline, which for a non-empty sequence is
each line followed by a newline; filter_hosts.py's sink writes only the
join and omits the final newline. -/
theorem c7_amended :
    (∀ ls : List String, ls ≠ [] →
      persistMain ls = strConcat (ls.map (fun l => l ++ "\n"))) ∧
    persistFilter ["a", "b"] = "a\nb" ∧
    persistMain ["a", "b"] = "a\nb\n" := by
  refine ⟨?_, rfl, rfl⟩
  intro ls h
  induction ls with
  | nil => exact absurd rfl h
  | cons l ls ih =>
    cases ls with
    | nil =>
      show l ++ "\n" = l ++ "\n" ++ strConcat []
      rw [show strConcat [] = "" from rfl, str_append_empty]
    | cons l2 ls2 =>
      have h2 : persistMain (l2 :: ls2) = strConcat ((l2 :: ls2).map (fun l => l ++ "\n")) :=
        ih (by simp)
      show joinNL (l :: l2 :: ls2) ++ "\n"
          = (l ++ "\n") ++ strConcat ((l2 :: ls2).map (fun l => l ++ "\n"))
      rw [← h2]
      show (l ++ "\n" ++ joinNL (l2 :: ls2)) ++ "\n" = (l ++ "\n") ++ (joinNL (l2 :: ls2) ++ "\n")
      simp [String.append_assoc]

/-- C7 witness: the amended statement applied at a concrete non-empty
list. -/
theorem c7_witness :
    persistMain ["x", "y"] = strConcat (["x", "y"].map (fun l => l ++ "\n")) :=
  c7_amended.1 ["x", "y"] (by decide)

/-! ## C8: the classifier swallows mid-stream failures -/

/-- C8 counterexample: a mid-stream transport failure makes
filter_hosts_file return the empty list, which is exactly what a
successful run that kept zero lines returns; a successful run over the
same delivered line would have kept it. -/
theorem c8_counterexample :
    filter_hosts_file exWhite Dict.nil ["0.0.0.0 sub.example.com"] true = [] ∧
    filter_hosts_file exWhite Dict.nil [] false = [] ∧
    filter_hosts_file exWhite Dict.nil ["0.0.0.0 sub.example.com"] false
      = ["0.0.0.0 sub.example.com"] := by
  refine ⟨rfl, rfl, by decide⟩

/-- C8 (amended): the builder does surface a mid-stream failure as a
distinguishable result (None instead of a trie), but the classifier
catches the failure and returns the empty list, indistinguishable from
a successful run that kept zero lines. -/
theorem c8_amended :
    (∀ lines, build_trie_from_url lines true = none) ∧
    (∀ t : Dict, some t ≠ (none : Option Dict)) ∧
    (∀ w b lines, filter_hosts_file w b lines true = []) ∧
    filter_hosts_file exWhite Dict.nil [] false = [] := by
  exact ⟨fun _ => rfl, fun t => Option.some_ne_none t, fun _ _ _ => rfl, rfl⟩

/-! ## C9: the end-mark key collides with a stored label "$" -/

/-- C9: after add_domain("$.com"), the child keyed "$" under "com" is
indistinguishable from the terminal flag during the query's descent, so
every domain whose rightmost label is "com" matches; in particular
"x.com" matches. -/
theorem c9_endmark_collision :
    add_domain Dict.nil "$.com" = some exDollarCom ∧
    (∀ rest : List String, queryParts ("com" :: rest) exDollarCom = some true) ∧
    (∀ d : String, ∀ rest : List String, (splitDots d).reverse = "com" :: rest →
      is_subdomain_or_match exDollarCom d = some true) ∧
    is_subdomain_or_match exDollarCom "x.com" = some true := by
  refine ⟨by decide, fun rest => rfl, ?_, by decide⟩
  intro d rest h
  have hd : d ≠ "" := by
    intro he
    rw [he] at h
    have : (splitDots "").reverse = [""] := rfl
    rw [this] at h
    simp at h
  unfold is_subdomain_or_match
  rw [if_neg hd, h]
  rfl

/-- C1 (amended): for every trie populated only by add_domain with
canonical keys (non-empty label lists) whose labels are never the
end-mark label "$", and every candidate label list D, the query answers
true exactly when some stored key k satisfies D = k or D is k with one
or more labels prepended (a label-boundary suffix match), and the query
never raises. -/
theorem c1_match_characterization (KS : List (List String)) (t : Dict)
    (hKS : ∀ k ∈ KS, k ≠ [] ∧ ∀ l ∈ k, l ≠ endKey)
    (ht : addKeys KS Dict.nil = some t) (D : List String) :
    queryParts D.reverse t = some (KS.any (fun k => isSuffKey k D)) ∧
    (KS.any (fun k => isSuffKey k D) = true
      ↔ ∃ k ∈ KS, D = k ∨ ∃ pre, pre ≠ [] ∧ D = pre ++ k) := by
  obtain ⟨hwt, hndt, hterm⟩ := addKeys_spec KS Dict.nil t rfl rfl hKS ht
  have hterm2 : ∀ qs, term qs t = KS.any (fun k => qs == k.reverse) := by
    intro qs
    rw [hterm qs, term_nil, Bool.false_or]
  constructor
  · rw [queryParts_eq_sem D.reverse t hwt hndt]
    refine congrArg some ?_
    by_cases hD : D = []
    · subst hD
      show dmem t endKey = KS.any fun k => isSuffKey k []
      rw [hndt]
      symm
      rw [List.any_eq_false]
      intro k hkm
      simp [isSuffKey_nil (hKS k hkm).1]
    · have hDr : D.reverse ≠ [] := fun he => hD (List.reverse_eq_nil_iff.mp he)
      rw [Bool.eq_iff_iff]
      rw [sem_iff_term D.reverse t hDr, List.any_eq_true]
      constructor
      · rintro ⟨n, hn, htn⟩
        rw [hterm2, List.any_eq_true] at htn
        obtain ⟨k, hkm, hke⟩ := htn
        rw [beq_iff_eq] at hke
        exact ⟨k, hkm, (take_rev_iff k D (hKS k hkm).1).mp ⟨n, hn, hke⟩⟩
      · rintro ⟨k, hkm, hsk⟩
        obtain ⟨n, hn, hke⟩ := (take_rev_iff k D (hKS k hkm).1).mpr hsk
        refine ⟨n, hn, ?_⟩
        rw [hterm2, List.any_eq_true]
        exact ⟨k, hkm, beq_iff_eq.mpr hke⟩
  · rw [List.any_eq_true]
    constructor
    · rintro ⟨k, hkm, hsk⟩
      exact ⟨k, hkm, (isSuffKey_spec k D).mp hsk⟩
    · rintro ⟨k, hkm, hor⟩
      exact ⟨k, hkm, (isSuffKey_spec k D).mpr hor⟩

/-- C1 witness: the characterization applied to the trie built from
"b.com": "a.b.com" matches, "ab.com" does not. -/
theorem c1_witness :
    queryParts (["a", "b", "com"] : List String).reverse exBcom
      = some ([["b", "com"]].any (fun k => isSuffKey k ["a", "b", "com"])) ∧
    queryParts (["ab", "com"] : List String).reverse exBcom
      = some ([["b", "com"]].any (fun k => isSuffKey k ["ab", "com"])) ∧
    [["b", "com"]].any (fun k => isSuffKey k ["a", "b", "com"]) = true ∧
    [["b", "com"]].any (fun k => isSuffKey k ["ab", "com"]) = false ∧
    is_subdomain_or_match exBcom "a.b.com" = some true ∧
    is_subdomain_or_match exBcom "ab.com" = some false := by
  refine ⟨?_, ?_, by decide, by decide, by decide, by decide⟩
  · exact (c1_match_characterization [["b", "com"]] exBcom (by decide) rfl ["a", "b", "com"]).1
  · exact (c1_match_characterization [["b", "com"]] exBcom (by decide) rfl ["ab", "com"]).1

/-- Merging a well-formed source into a well-formed destination
succeeds, preserves well-formedness, unions the root end marks, and
unions the stored-path sets. -/
theorem mergeNodes_spec : ∀ (src dest : Dict), WF src = true → WF dest = true →
    ∃ m, mergeNodes src dest = some m ∧ WF m = true ∧
      dmem m endKey = (dmem dest endKey || dmem src endKey) ∧
      ∀ qs, term qs m = (term qs dest || term qs src) := by
  intro src
  induction src with
  | nil =>
    intro dest _ hwd
    refine ⟨dest, rfl, hwd, ?_, fun qs => ?_⟩
    · rw [show dmem Dict.nil endKey = false from rfl, Bool.or_false]
    · rw [term_nil, Bool.or_false]
  | consMark k r ih =>
    intro dest hws hwd
    simp only [WF, Bool.and_eq_true, beq_iff_eq] at hws
    obtain ⟨⟨hk, hnd⟩, hwr⟩ := hws
    subst hk
    have hndr : dmem r endKey = false := by simpa using hnd
    obtain ⟨m, hm, hwm, hmm, hterm⟩ := ih (dsetMark dest endKey) hwr (WF_dsetMark hwd)
    have hR : dmem (Dict.consMark endKey r) endKey = true := by
      rw [dmem_eq, dfind?_consMark, if_pos rfl]
      rfl
    refine ⟨m, ?_, hwm, ?_, fun qs => ?_⟩
    · show mergeNodes (.consMark endKey r) dest = some m
      unfold mergeNodes
      rw [if_pos rfl]
      exact hm
    · rw [hmm, dmem_dsetMark, hR]
      simp
    · rw [hterm qs]
      cases qs with
      | nil =>
        show (dmem (dsetMark dest endKey) endKey || dmem r endKey)
          = (dmem dest endKey || dmem (Dict.consMark endKey r) endKey)
        rw [dmem_dsetMark, hR, hndr]
        simp
      | cons q qs =>
        by_cases hq : endKey = q
        · subst hq
          have h1 : term (endKey :: qs) (dsetMark dest endKey) = false := by
            rw [term_cons, dfind?_dsetMark, if_pos rfl]
          have h2 : term (endKey :: qs) dest = false := term_end_cons hwd qs
          have h3 : term (endKey :: qs) (Dict.consMark endKey r) = false := by
            rw [term_cons]
            have hf : dfind? (Dict.consMark endKey r) endKey = some none := by
              rw [dfind?_consMark, if_pos rfl]
            rw [hf]
          have h4 : term (endKey :: qs) r = false := by
            rw [term_cons]
            have hf : dfind? r endKey = none := by
              cases hf2 : dfind? r endKey with
              | none => rfl
              | some v =>
                exfalso
                have hmem : dmem r endKey = true := by rw [dmem_eq, hf2]; rfl
                rw [hmem] at hndr
                exact Bool.noConfusion hndr
            rw [hf]
          rw [h1, h2, h3, h4]
        · have h1 : term (q :: qs) (dsetMark dest endKey) = term (q :: qs) dest := by
            rw [term_cons, dfind?_dsetMark, if_neg hq, ← term_cons]
          have h3 : term (q :: qs) (Dict.consMark endKey r) = term (q :: qs) r := by
            rw [term_cons]
            have hf : dfind? (Dict.consMark endKey r) q = dfind? r q := by
              rw [dfind?_consMark, if_neg hq]
            rw [hf, ← term_cons]
          rw [h1, h3]
  | consNode k c r ihc ihr =>
    intro dest hws hwd
    simp only [WF, Bool.and_eq_true] at hws
    obtain ⟨⟨⟨hk, hnd⟩, hwc⟩, hwr⟩ := hws
    have hkne : k ≠ endKey := by simpa using hk
    have hkb : (k == endKey) = false := by simpa using hkne
    have hndr : dmem r k = false := by simpa using hnd
    have hRmem : dmem (Dict.consNode k c r) endKey = dmem r endKey := by
      rw [dmem_eq, dfind?_consNode, if_neg hkne, ← dmem_eq]
    have hBfalse : ∀ qs, term (k :: qs) r = false := by
      intro qs
      rw [term_cons]
      have hf : dfind? r k = none := by
        cases hf2 : dfind? r k with
        | none => rfl
        | some v =>
          exfalso
          have hmem : dmem r k = true := by rw [dmem_eq, hf2]; rfl
          rw [hmem] at hndr
          exact Bool.noConfusion hndr
      rw [hf]
    have hDterm : ∀ qs, term (k :: qs) (Dict.consNode k c r) = term qs c := by
      intro qs
      rw [term_cons]
      have hf : dfind? (Dict.consNode k c r) k = some (some c) := by
        rw [dfind?_consNode, if_pos rfl]
      rw [hf]
    have hNterm : ∀ (q : String) (qs : List String), k ≠ q →
        term (q :: qs) (Dict.consNode k c r) = term (q :: qs) r := by
      intro q qs hq
      rw [term_cons]
      have hf : dfind? (Dict.consNode k c r) q = dfind? r q := by
        rw [dfind?_consNode, if_neg hq]
      rw [hf, ← term_cons]
    cases hfind : dfind? dest k with
    | none =>
      obtain ⟨c2, hc2, hwc2, _, hc2term⟩ := ihc Dict.nil hwc rfl
      obtain ⟨m, hm, hwm, hmm, hterm⟩ := ihr (dsetNode dest k c2) hwr (WF_dsetNode hwd hkne hwc2)
      refine ⟨m, ?_, hwm, ?_, fun qs => ?_⟩
      · show mergeNodes (.consNode k c r) dest = some m
        unfold mergeNodes
        rw [if_neg hkne, hfind]
        dsimp only
        rw [hc2]
        dsimp only
        exact hm
      · rw [hmm, dmem_dsetNode, hkb, Bool.false_or, hRmem]
      · rw [hterm qs]
        cases qs with
        | nil =>
          show (dmem (dsetNode dest k c2) endKey || dmem r endKey)
            = (dmem dest endKey || dmem (Dict.consNode k c r) endKey)
          rw [dmem_dsetNode, hkb, Bool.false_or, hRmem]
        | cons q qs =>
          by_cases hq : k = q
          · subst hq
            have hA : term (k :: qs) (dsetNode dest k c2) = term qs c2 := by
              rw [term_cons, dfind?_dsetNode, if_pos rfl]
            have hC : term (k :: qs) dest = false := by
              rw [term_cons, hfind]
            rw [hA, hC, hBfalse qs, hDterm qs, hc2term qs, term_nil]
            simp
          · have hA : term (q :: qs) (dsetNode dest k c2) = term (q :: qs) dest := by
              rw [term_cons, dfind?_dsetNode, if_neg hq, ← term_cons]
            rw [hA, hNterm q qs hq]
    | some v =>
      cases v with
      | none => exact absurd (WF_mark_key hwd hfind) hkne
      | some dsub =>
        obtain ⟨c2, hc2, hwc2, _, hc2term⟩ := ihc dsub hwc (WF_child hwd hfind)
        obtain ⟨m, hm, hwm, hmm, hterm⟩ := ihr (dsetNode dest k c2) hwr (WF_dsetNode hwd hkne hwc2)
        refine ⟨m, ?_, hwm, ?_, fun qs => ?_⟩
        · show mergeNodes (.consNode k c r) dest = some m
          unfold mergeNodes
          rw [if_neg hkne, hfind]
          dsimp only
          rw [hc2]
          dsimp only
          exact hm
        · rw [hmm, dmem_dsetNode, hkb, Bool.false_or, hRmem]
        · rw [hterm qs]
          cases qs with
          | nil =>
            show (dmem (dsetNode dest k c2) endKey || dmem r endKey)
              = (dmem dest endKey || dmem (Dict.consNode k c r) endKey)
            rw [dmem_dsetNode, hkb, Bool.false_or, hRmem]
          | cons q qs =>
            by_cases hq : k = q
            · subst hq
              have hA : term (k :: qs) (dsetNode dest k c2) = term qs c2 := by
                rw [term_cons, dfind?_dsetNode, if_pos rfl]
              have hC : term (k :: qs) dest = term qs dsub := by
                rw [term_cons, hfind]
              rw [hA, hC, hBfalse qs, hDterm qs, hc2term qs]
              simp [Bool.or_comm]
            · have hA : term (q :: qs) (dsetNode dest k c2) = term (q :: qs) dest := by
                rw [term_cons, dfind?_dsetNode, if_neg hq, ← term_cons]
              rw [hA, hNterm q qs hq]

/-- A pointwise union of stored-path sets gives a pointwise union of
match sets. -/
theorem sem_union (a b m : Dict)
    (hterm : ∀ qs, term qs m = (term qs a || term qs b)) :
    ∀ ps, sem ps m = (sem ps a || sem ps b) := by
  intro ps
  by_cases hps : ps = []
  · subst hps
    exact hterm []
  · rw [Bool.eq_iff_iff, Bool.or_eq_true, sem_iff_term ps m hps, sem_iff_term ps a hps,
      sem_iff_term ps b hps]
    constructor
    · rintro ⟨n, hn, ht⟩
      rw [hterm, Bool.or_eq_true] at ht
      rcases ht with h | h
      exacts [Or.inl ⟨n, hn, h⟩, Or.inr ⟨n, hn, h⟩]
    · rintro (⟨n, hn, h⟩ | ⟨n, hn, h⟩)
      · exact ⟨n, hn, by rw [hterm, Bool.or_eq_true]; exact Or.inl h⟩
      · exact ⟨n, hn, by rw [hterm, Bool.or_eq_true]; exact Or.inr h⟩

/-- C3 (amended): for tries whose bindings are well-formed (end marks
only under "$", no "$"-keyed children, unique keys) and carry no
root-level end mark, merging in either order succeeds and never raises,
each query on the merged trie answers the disjunction of the two input
answers (the match set is the union), and both merge orders are
observably identical. -/
theorem c3_merge_union (t1 t2 : Dict)
    (hw1 : WF t1 = true) (hw2 : WF t2 = true)
    (hr1 : dmem t1 endKey = false) (hr2 : dmem t2 endKey = false) :
    ∃ m12 m21, merge_tries t1 t2 = some m12 ∧ merge_tries t2 t1 = some m21 ∧
      ∀ D : List String, ∃ b1 b2,
        queryParts D.reverse t1 = some b1 ∧
        queryParts D.reverse t2 = some b2 ∧
        queryParts D.reverse m12 = some (b1 || b2) ∧
        queryParts D.reverse m21 = some (b1 || b2) := by
  obtain ⟨m12, hm12, hwm12, hmm12, hterm12⟩ := mergeNodes_spec t2 t1 hw2 hw1
  obtain ⟨m21, hm21, hwm21, hmm21, hterm21⟩ := mergeNodes_spec t1 t2 hw1 hw2
  have hnd12 : dmem m12 endKey = false := by rw [hmm12, hr1, hr2]; rfl
  have hnd21 : dmem m21 endKey = false := by rw [hmm21, hr1, hr2]; rfl
  refine ⟨m12, m21, hm12, hm21, fun D => ?_⟩
  refine ⟨sem D.reverse t1, sem D.reverse t2,
    queryParts_eq_sem _ _ hw1 hr1, queryParts_eq_sem _ _ hw2 hr2, ?_, ?_⟩
  · rw [queryParts_eq_sem _ _ hwm12 hnd12]
    exact congrArg some (sem_union t1 t2 m12 hterm12 D.reverse)
  · rw [queryParts_eq_sem _ _ hwm21 hnd21]
    refine congrArg some ?_
    rw [sem_union t2 t1 m21 hterm21 D.reverse]
    exact Bool.or_comm _ _

/-- C3 witness: merging the tries for "b.com" and "example.com" in
both orders, with the union checked at sample domains. -/
theorem c3_witness :
    (∃ m12 m21, merge_tries exBcom exWhite = some m12 ∧
      merge_tries exWhite exBcom = some m21 ∧
      ∀ D : List String, ∃ b1 b2,
        queryParts D.reverse exBcom = some b1 ∧
        queryParts D.reverse exWhite = some b2 ∧
        queryParts D.reverse m12 = some (b1 || b2) ∧
        queryParts D.reverse m21 = some (b1 || b2)) :=
  c3_merge_union exBcom exWhite (by decide) (by decide) (by decide) (by decide)

/-- C9 witness: the collision theorem applied to a concrete domain
whose rightmost label is "com". -/
theorem c9_witness :
    is_subdomain_or_match exDollarCom "a.x.com" = some true :=
  (c9_endmark_collision.2.2).1 "a.x.com" ["x", "a"] (by decide)

/-! ## C1 counterexample: the claim fails for the canonical key "$.com" -/

/-- C1 counterexample: the key "$.com" consists of non-empty
dot-separated labels, yet after inserting it the query for "x.com"
answers true although "x.com" neither equals "$.com" nor ends in
".$.com". -/
theorem c1_counterexample :
    add_domain Dict.nil "$.com" = some exDollarCom ∧
    is_subdomain_or_match exDollarCom "x.com" = some true ∧
    "x.com" ≠ "$.com" ∧
    List.isSuffixOf (".$.com").data ("x.com").data = false := by
  refine ⟨by decide, by decide, by decide, by decide⟩

/-! ## C3 counterexample: merge loses a "$"-labelled subtree -/

/-- C3 counterexample: the trie built from "a.$" matches "a.$", but
merging it into an empty trie flattens its "$"-keyed root child into a
bare end mark; the merged trie then raises on the very domain the
source matched (and the two merge orders give observably different
results), so the merged match set is not the union. -/
theorem c3_counterexample :
    add_domain Dict.nil "a.$" = some exDolT2 ∧
    is_subdomain_or_match exDolT2 "a.$" = some true ∧
    merge_tries exDolT2 Dict.nil = some exDolT2 ∧
    merge_tries Dict.nil exDolT2 = some exDolMerged ∧
    is_subdomain_or_match exDolMerged "a.$" = none := by
  refine ⟨by decide, by decide, by decide, by decide, by decide⟩

end Hosts
